import Mathlib

/-!
# Verification of the alexify matching and scoring engine

A shallow embedding of the matching/scoring core of the `alexify`
repository (`alexify/matching.py`, `alexify/core.py`), together with
theorems settling the frozen claims about its specification.

Modelling conventions:

* Python `str` values are modelled as `List Char`.
* Python `float` arithmetic is modelled by exact rationals (`ℚ`); all
  numeric literals occurring in the code (0.7, 0.3, 0.5, 90, ...) are
  exactly representable, so only rounding at the extreme margins could
  differ, and no claim here depends on such margins.
* The fuzzywuzzy string-similarity primitives (`fuzz.ratio`,
  `fuzz.partial_ratio`, `fuzz.token_set_ratio`) are embedded following
  the fuzzywuzzy sources, with `difflib.SequenceMatcher` modelled per
  its documented contract for `isjunk=None` (longest matching block,
  earliest in `a`, then earliest in `b`); the `autojunk` heuristic,
  which only activates for sequences of length ≥ 200, is not modelled.
* `unicodedata.normalize("NFKD", ·).encode("ASCII", "ignore")` is
  modelled by a character-level fold that is the identity on ASCII and
  maps the Latin accented letters through a finite decomposition table
  (other non-ASCII characters are dropped, as the ASCII-ignore step
  does for characters without an ASCII decomposition).
-/

namespace Alexify

attribute [local semireducible] Rat.add Rat.mul Rat.sub Rat.inv

/-! ## Character classes (Python's `\s`, `string.punctuation`, `\w`, `str.lower`) -/

/-- Code points of the ASCII characters matched by Python's whitespace
class (`\s`, `str.split()`, `str.strip()`): TAB, LF, VT, FF, CR,
FS, GS, RS, US, SPACE. -/
def pySpaceCodes : List Nat := [9, 10, 11, 12, 13, 28, 29, 30, 31, 32]

def isPySpace (c : Char) : Bool := pySpaceCodes.contains c.toNat

/-- Code points of `string.punctuation`. -/
def pyPunctCodes : List Nat :=
  [33, 34, 35, 36, 37, 38, 39, 40, 41, 42, 43, 44, 45, 46, 47,
   58, 59, 60, 61, 62, 63, 64, 91, 92, 93, 94, 95, 96, 123, 124, 125, 126]

def isPyPunct (c : Char) : Bool := pyPunctCodes.contains c.toNat

/-- Python's `\w` on ASCII text: `[a-zA-Z0-9_]`. -/
def isPyWord (c : Char) : Bool :=
  (48 ≤ c.toNat && c.toNat ≤ 57) || (65 ≤ c.toNat && c.toNat ≤ 90) ||
  (97 ≤ c.toNat && c.toNat ≤ 122) || c.toNat == 95

/-- Python's `str.lower` restricted to ASCII (every call site lowercases
text that has already been folded to ASCII). -/
def pyToLower (c : Char) : Char :=
  if 65 ≤ c.toNat ∧ c.toNat ≤ 90 then Char.ofNat (c.toNat + 32) else c

/-- Decomposition table for the accented Latin-1 letters: the effect of
`unicodedata.normalize("NFKD", ·)` followed by dropping non-ASCII bytes
on these characters. -/
def asciiFoldTable : List (Char × List Char) :=
  [('á', ['a']), ('à', ['a']), ('â', ['a']), ('ä', ['a']), ('ã', ['a']), ('å', ['a']),
   ('é', ['e']), ('è', ['e']), ('ê', ['e']), ('ë', ['e']),
   ('í', ['i']), ('ì', ['i']), ('î', ['i']), ('ï', ['i']),
   ('ó', ['o']), ('ò', ['o']), ('ô', ['o']), ('ö', ['o']), ('õ', ['o']),
   ('ú', ['u']), ('ù', ['u']), ('û', ['u']), ('ü', ['u']),
   ('ñ', ['n']), ('ç', ['c']), ('ý', ['y']),
   ('Á', ['A']), ('À', ['A']), ('Ä', ['A']), ('Å', ['A']),
   ('É', ['E']), ('Ö', ['O']), ('Ü', ['U']), ('Ñ', ['N']), ('Ç', ['C'])]

/-- `unicodedata.normalize("NFKD", s).encode("ASCII", "ignore")`, one
character at a time: ASCII characters are fixed, tabled accented letters
decompose to their base letter, all other characters are dropped. -/
def asciiFold (c : Char) : List Char :=
  if c.toNat < 128 then [c]
  else match asciiFoldTable.find? (fun p => p.1 = c) with
       | some p => p.2
       | none => []

/-! ## Whitespace tokenization (`str.split()`, `re.sub(r"\s+", " ", ·).strip()`) -/

theorem dropWhile_length_le (p : Char → Bool) (l : List Char) :
    (l.dropWhile p).length ≤ l.length := by
  induction l with
  | nil => simp [List.dropWhile]
  | cons c rest ih =>
    by_cases h : p c
    · simp [List.dropWhile, h]; omega
    · simp [List.dropWhile, h]

/-- Fuelled worker for `splitWs` (structural recursion on the fuel so
that the kernel can evaluate it; `splitWs` supplies fuel dominating the
string length). -/
def splitWsF : Nat → List Char → List (List Char)
  | 0, _ => []
  | _ + 1, [] => []
  | fuel + 1, c :: rest =>
    if isPySpace c then splitWsF fuel rest
    else (c :: rest.takeWhile (fun d => !isPySpace d)) ::
         splitWsF fuel (rest.dropWhile (fun d => !isPySpace d))

/-- Python `s.split()`: split on runs of whitespace, no empty tokens. -/
def splitWs (s : List Char) : List (List Char) := splitWsF s.length s

/-- `" ".join(tokens)`. -/
def joinSpaces : List (List Char) → List Char
  | [] => []
  | [w] => w
  | w :: ws => w ++ ' ' :: joinSpaces ws

/-- Python `s.strip()`. -/
def pyStrip (s : List Char) : List Char :=
  ((s.dropWhile isPySpace).reverse.dropWhile isPySpace).reverse

/-! ## Text and name normalization (`alexify.matching`) -/

/-- The stopword set of `alexify.matching.STOPWORDS`. -/
def STOPWORDS : List (List Char) :=
  [['t','h','e'], ['o','f'], ['a','n','d'], ['a'], ['a','n'], ['i','n'],
   ['t','o'], ['o','n'], ['f','o','r'], ['w','i','t','h'], ['l','a']]

/-- `alexify.matching.normalize_text`: fold accents to ASCII, remove
`string.punctuation`, collapse whitespace (`re.sub(r"\s+", " ", ·)
.strip()`, rendered as `joinSpaces ∘ splitWs`), lowercase, drop
stopwords, re-join with single spaces.  Empty input stays empty. -/
def normalize_text (text : List Char) : List Char :=
  if text = [] then []
  else
    joinSpaces ((splitWs ((joinSpaces (splitWs ((text.flatMap asciiFold).filter
        (fun c => !isPyPunct c)))).map pyToLower)).filter
      (fun w => !STOPWORDS.contains w))

/-- `alexify.matching.normalize_name`: fold accents to ASCII, remove
`[^\w\s]`, collapse whitespace, strip, lowercase. -/
def normalize_name (name : List Char) : List Char :=
  if name = [] then []
  else
    (joinSpaces (splitWs ((name.flatMap asciiFold).filter
      (fun c => isPyWord c || isPySpace c)))).map pyToLower

/-- The suffix set of `split_name_components`. -/
def SUFFIXES : List (List Char) :=
  [['j','r'], ['s','r'], ['i','i'], ['i','i','i'], ['i','v']]

/-- The suffix-merging step: if the last token is a known suffix and
there are at least two tokens, merge it into the preceding token. -/
def mergeSuffix (parts : List (List Char)) : List (List Char) :=
  match parts.reverse with
  | last :: prev :: rest =>
      if SUFFIXES.contains last then ((prev ++ ' ' :: last) :: rest).reverse
      else parts
  | _ => parts

/-- `alexify.matching.split_name_components`: normalize, tokenize, merge
a trailing suffix, then dispatch on the token count into
(first, middle, last). -/
def split_name_components (name : List Char) :
    List Char × List Char × List Char :=
  if name = [] ∨ pyStrip name = [] then ([], [], [])
  else
    match mergeSuffix (splitWs (normalize_name name)) with
    | [] => ([], [], [])
    | [p] => ([], [], p)
    | [p, q] => (p, [], q)
    | p :: rest => (p, joinSpaces rest.dropLast, (rest.getLast?).getD [])

/-! ## difflib.SequenceMatcher model (isjunk=None)

`fuzzywuzzy` delegates all string similarity to
`difflib.SequenceMatcher`.  We model `find_longest_match` by its
documented contract for `isjunk=None`: among all matching blocks
`(i, j, k)` (with `a[i:i+k] == b[j:j+k]` inside the given windows)
return one of maximal `k`, of those the one with minimal `i`, of those
minimal `j`; if none, `(alo, blo, 0)`. -/

/-- `a[i:i+k] == b[j:j+k]`, with both ranges in bounds. -/
def isBlock (a b : List Char) (i j k : Nat) : Bool :=
  decide (i + k ≤ a.length) && decide (j + k ≤ b.length) &&
  decide ((a.drop i).take k = (b.drop j).take k)

/-- All in-window start pairs for a block of size `k`, in lexicographic
order (`i` ascending, then `j` ascending). -/
def candPairs (alo ahi blo bhi k : Nat) : List (Nat × Nat) :=
  (List.range' alo (ahi - alo + 1 - k)).flatMap
    (fun i => (List.range' blo (bhi - blo + 1 - k)).map (fun j => (i, j)))

/-- `SequenceMatcher.find_longest_match` on the window
`a[alo:ahi]`, `b[blo:bhi]`. -/
def findLongestMatch (a b : List Char) (alo ahi blo bhi : Nat) :
    Nat × Nat × Nat :=
  match (List.range (min (ahi - alo) (bhi - blo) + 1)).reverse.findSome? (fun k =>
      if k = 0 then none
      else ((candPairs alo ahi blo bhi k).find?
              (fun p => isBlock a b p.1 p.2 k)).map (fun p => (p.1, p.2, k))) with
  | some r => r
  | none => (alo, blo, 0)

/-- The recursive block decomposition of
`SequenceMatcher.get_matching_blocks` (the Python queue loop is an
iterative traversal of exactly this recursion; the guards
`alo < i and blo < j` are omitted because an empty window yields no
block).  `fuel` dominates the window width. -/
def matchingBlocksAux (a b : List Char) :
    Nat → Nat → Nat → Nat → Nat → List (Nat × Nat × Nat)
  | 0, _, _, _, _ => []
  | fuel + 1, alo, ahi, blo, bhi =>
    match findLongestMatch a b alo ahi blo bhi with
    | (i, j, k) =>
      if k = 0 then []
      else matchingBlocksAux a b fuel alo i blo j ++
           (i, j, k) :: matchingBlocksAux a b fuel (i + k) ahi (j + k) bhi

/-- The adjacent-block collapse at the end of `get_matching_blocks`. -/
def gmbCollapse : Nat × Nat × Nat → List (Nat × Nat × Nat) → List (Nat × Nat × Nat)
  | (i1, j1, k1), [] => if k1 ≠ 0 then [(i1, j1, k1)] else []
  | (i1, j1, k1), (i2, j2, k2) :: rest =>
      if i1 + k1 = i2 ∧ j1 + k1 = j2 then gmbCollapse (i1, j1, k1 + k2) rest
      else if k1 ≠ 0 then (i1, j1, k1) :: gmbCollapse (i2, j2, k2) rest
      else gmbCollapse (i2, j2, k2) rest

/-- `SequenceMatcher.get_matching_blocks`: recursive decomposition,
adjacent collapse, terminating dummy `(la, lb, 0)`. -/
def getMatchingBlocks (a b : List Char) : List (Nat × Nat × Nat) :=
  gmbCollapse (0, 0, 0)
      (matchingBlocksAux a b (a.length + 1) 0 a.length 0 b.length) ++
  [(a.length, b.length, 0)]

/-- Total number of matched elements (the `matches` of
`SequenceMatcher.ratio`). -/
def sumKs (blocks : List (Nat × Nat × Nat)) : Nat :=
  (blocks.map (fun t => t.2.2)).sum

/-- `SequenceMatcher.ratio()` as an exact rational:
`2.0 * matches / (len(a) + len(b))`, and `1.0` when both are empty. -/
def seqRatio (a b : List Char) : ℚ :=
  if a.length + b.length = 0 then 1
  else (2 * (sumKs (getMatchingBlocks a b)) : ℚ) / (a.length + b.length)

/-- The floor of a rational, written with Euclidean integer division so
that the kernel can evaluate it (`ratFloor_eq_floor` below identifies it
with `⌊·⌋`). -/
def ratFloor (q : ℚ) : ℤ := q.num.ediv q.den

/-- Python's `round` (banker's rounding) on a rational, as used by
`fuzzywuzzy.utils.intr`. -/
def pyRound (q : ℚ) : ℤ :=
  let f : ℤ := ratFloor q
  let r : ℚ := q - f
  if r < 1 / 2 then f
  else if 1 / 2 < r then f + 1
  else if f % 2 = 0 then f else f + 1

/-! ## fuzzywuzzy primitives -/

/-- `fuzz.ratio`: guarded by the `check_for_none` / `check_empty_string`
decorators (either argument empty gives 0), then
`intr(100 * SequenceMatcher(None, s1, s2).ratio())`. -/
def fuzzRatio (s1 s2 : List Char) : ℤ :=
  if s1 = [] ∨ s2 = [] then 0
  else pyRound (100 * seqRatio s1 s2)

/-- `max` of a list of rationals (Python `max(scores)`; the scores list
is never empty at the call site, `0` default is a total-function filler). -/
def maxListQ : List ℚ → ℚ
  | [] => 0
  | [q] => q
  | q :: rest => max q (maxListQ rest)

/-- The block loop of `fuzz.partial_ratio`: slide a `len(shorter)`-sized
window of `longer` to each matching block, return 100 at the first
ratio above .995, else `intr(100 * max(scores))`. -/
def partialScan (shorter longer : List Char) :
    List (Nat × Nat × Nat) → List ℚ → ℤ
  | [], scores => pyRound (100 * maxListQ scores)
  | (bi, bj, _) :: rest, scores =>
      let lstart := bj - bi
      let sub := (longer.drop lstart).take shorter.length
      let r := seqRatio shorter sub
      if 199 / 200 < r then 100
      else partialScan shorter longer rest (scores ++ [r])

/-- `fuzz.partial_ratio`. -/
def fuzzPartialRatio (s1 s2 : List Char) : ℤ :=
  if s1 = [] ∨ s2 = [] then 0
  else
    let p := if s1.length ≤ s2.length then (s1, s2) else (s2, s1)
    partialScan p.1 p.2 (getMatchingBlocks p.1 p.2) []

/-- Python string `<`: lexicographic comparison by code point. -/
def lexLt : List Char → List Char → Bool
  | [], [] => false
  | [], _ :: _ => true
  | _ :: _, [] => false
  | x :: xs, y :: ys => if x < y then true else if y < x then false else lexLt xs ys

/-- Stable insertion keeping ascending lexicographic order. -/
def insertStr (x : List Char) : List (List Char) → List (List Char)
  | [] => [x]
  | y :: ys => if lexLt y x then y :: insertStr x ys else x :: y :: ys

/-- Python `sorted` on a list of strings. -/
def sortStrs : List (List Char) → List (List Char)
  | [] => []
  | x :: xs => insertStr x (sortStrs xs)

/-- `fuzzywuzzy.utils.full_process`: drop non-ASCII, replace non-`\w`
characters by spaces, lowercase, strip. -/
def full_process (s : List Char) : List Char :=
  pyStrip (((s.filter (fun c => c.toNat < 128)).map
    (fun c => if isPyWord c then c else ' ')).map pyToLower)

/-- The deduplicated token set of a processed string
(`set(p.split())`; the sort applied below makes the arbitrary set
order immaterial). -/
def tokenSet (s : List Char) : List (List Char) :=
  (splitWs (full_process s)).dedup

/-- `" ".join(sorted(tokens1.intersection(tokens2)))`. -/
def tsSortedSect (s1 s2 : List Char) : List Char :=
  joinSpaces (sortStrs ((tokenSet s1).filter (fun t => (tokenSet s2).contains t)))

/-- `" ".join(sorted(tokens_a.difference(tokens_b)))`. -/
def tsDiffJoin (sa sb : List Char) : List Char :=
  joinSpaces (sortStrs ((tokenSet sa).filter (fun t => !(tokenSet sb).contains t)))

/-- `fuzz.token_set_ratio` (i.e. `fuzz._token_set` with
`partial=False, force_ascii=True, full_process=True`). -/
def token_set_ratio (s1 s2 : List Char) : ℤ :=
  if full_process s1 = [] then 0
  else if full_process s2 = [] then 0
  else
    max (max
      (fuzzRatio (pyStrip (tsSortedSect s1 s2))
        (pyStrip (tsSortedSect s1 s2 ++ ' ' :: tsDiffJoin s1 s2)))
      (fuzzRatio (pyStrip (tsSortedSect s1 s2))
        (pyStrip (tsSortedSect s1 s2 ++ ' ' :: tsDiffJoin s2 s1))))
      (fuzzRatio (pyStrip (tsSortedSect s1 s2 ++ ' ' :: tsDiffJoin s1 s2))
        (pyStrip (tsSortedSect s1 s2 ++ ' ' :: tsDiffJoin s2 s1)))

/-! ## Scoring (`alexify.matching`, `alexify.core`) -/

/-- `alexify.matching.fuzzy_match_titles`.  `none` models a Python
`None`/missing title; the weight type-validation branches of the code
cannot fire in a typed embedding, and its conditional weight clamping
into `[0,1]` is rendered as an unconditional clamp (a no-op inside the
valid range, identical outside it). -/
def fuzzy_match_titles (title1 title2 : Option (List Char))
    (weight_token weight_part : ℚ) : ℚ :=
  let wt := max 0 (min 1 weight_token)
  let wp := max 0 (min 1 weight_part)
  match title1, title2 with
  | some t1s, some t2s =>
    if t1s = [] ∨ t2s = [] then 0
    else
      let t1 := normalize_text t1s
      let t2 := normalize_text t2s
      if t1 = [] ∨ t2 = [] then 0
      else wt * (token_set_ratio t1 t2 : ℚ) + wp * (fuzzPartialRatio t1 t2 : ℚ)
  | _, _ => 0

/-- `alexify.matching.match_name_parts`. -/
def match_name_parts (bib_author openalex_author : List Char) : ℚ :=
  let b := split_name_components bib_author
  let oa := split_name_components openalex_author
  if b.2.2 = [] ∧ oa.2.2 = [] then 0
  else
    let last_name_score : ℚ := (fuzzRatio b.2.2 oa.2.2 : ℚ)
    if last_name_score < 90 then 0
    else
      let first_name_score : ℚ :=
        max (fuzzRatio b.1 oa.1 : ℚ) (fuzzPartialRatio b.1 oa.1 : ℚ)
      let mid_name_score : ℚ :=
        if b.2.1 = [] ∧ oa.2.1 = [] then 100
        else max (fuzzRatio b.2.1 oa.2.1 : ℚ) (fuzzPartialRatio b.2.1 oa.2.1 : ℚ)
      let total := 1 / 2 * last_name_score + 3 / 10 * first_name_score +
                   1 / 5 * mid_name_score
      max 0 (min total 100)

/-- Does this suffix of the author field start with the separator
pattern `\s+and\s+` (case-insensitive)?  If so, return the remainder
after the greedily matched separator. -/
def andSep (l : List Char) : Option (List Char) :=
  if l.head?.any isPySpace then
    match l.dropWhile isPySpace with
    | a :: n :: d :: rest =>
        if (pyToLower a = 'a' ∧ pyToLower n = 'n' ∧ pyToLower d = 'd') ∧
           rest.head?.any isPySpace
        then some (rest.dropWhile isPySpace)
        else none
    | _ => none
  else none

/-- Fuelled scan splitting an author field on `\s+and\s+`
(case-insensitive), leftmost match first — the behaviour of
`re.split(r"\s+and\s+", field, flags=re.IGNORECASE)`. -/
def splitAndF : Nat → List Char → List Char → List (List Char)
  | 0, acc, _ => [acc.reverse]
  | _ + 1, acc, [] => [acc.reverse]
  | fuel + 1, acc, c :: rest =>
    match andSep (c :: rest) with
    | some remainder => acc.reverse :: splitAndF fuel [] remainder
    | none => splitAndF fuel (c :: acc) rest

/-- The first comma split of `auth.split(",", 1)`. -/
def splitFirstComma : List Char → Option (List Char × List Char)
  | [] => none
  | c :: rest =>
    if c = ',' then some ([], rest)
    else match splitFirstComma rest with
         | some p => some (c :: p.1, p.2)
         | none => none

/-- `alexify.matching.parse_bibtex_authors`: split on `\s+and\s+`
(case-insensitive); pieces containing a comma are rewritten from
"Last, First" to "First Last" (with `maxsplit=1` the comma split always
yields exactly two parts, so only that branch is reachable). -/
def parse_bibtex_authors (author_field : List Char) : List (List Char) :=
  if author_field = [] then []
  else
    (splitAndF author_field.length [] author_field).map (fun auth =>
      let auth := pyStrip auth
      match splitFirstComma auth with
      | some p => pyStrip (pyStrip p.2 ++ ' ' :: pyStrip p.1)
      | none => auth)

/-- The inner candidate loop of `fuzzy_match_authors`: does some
OpenAlex author match `bib_auth` at or above the threshold?  (The
code's running `best_score` is dead after the loop and is omitted.) -/
def anyNameMatch (bib_auth : List Char) (threshold : ℚ) :
    List (List Char) → Bool
  | [] => false
  | oa :: rest =>
    if threshold ≤ match_name_parts bib_auth oa then true
    else anyNameMatch bib_auth threshold rest

/-- `alexify.matching.fuzzy_match_authors`.  As with the weights of
`fuzzy_match_titles`, the conditional threshold clamp is rendered as an
unconditional clamp into `[0,100]`. -/
def fuzzy_match_authors (bibtex_authors openalex_authors : List (List Char))
    (threshold : ℚ) : ℚ :=
  let θ := max 0 (min 100 threshold)
  if bibtex_authors = [] ∨ openalex_authors = [] then 0
  else
    let covered := (bibtex_authors.filter
        (fun b => anyNameMatch b θ openalex_authors)).length
    let coverage := ((covered : ℚ) / bibtex_authors.length) * 100
    let diff := max bibtex_authors.length openalex_authors.length -
                min bibtex_authors.length openalex_authors.length
    let coverage := if 2 < diff then coverage - (diff : ℚ) * 5 else coverage
    max 0 coverage

/-! ## Citations, candidate works, and the decision engine (`alexify.core`) -/

/-- A BibTeX entry: an association list of string fields (a Python dict
whose values are strings, with unique keys). -/
abbrev Entry := List (List Char × List Char)

def getField (e : Entry) (k : List Char) : Option (List Char) :=
  (e.find? (fun p => p.1 = k)).map (fun p => p.2)

/-- `entry.get(k, "")`. -/
def getFieldD (e : Entry) (k : List Char) : List Char := (getField e k).getD []

/-- `k in entry`. -/
def hasField (e : Entry) (k : List Char) : Bool := (getField e k).isSome

/-- `entry[k] = v`: replace an existing binding or append a new one. -/
def setField (e : Entry) (k v : List Char) : Entry :=
  if hasField e k
  then e.map (fun p => if p.1 = k then (k, v) else p)
  else e ++ [(k, v)]

/-- `alexify.matching.clean_bibtex_entry` on a single field value. -/
def cleanFieldVal (field val : List Char) : List Char :=
  if field.map pyToLower = ['a','b','s','t','r','a','c','t'] then
    pyStrip (val.filter (fun c => c ≠ '\n'))
  else
    joinSpaces (splitWs (val.map (fun c => if c = '\n' then ' ' else c)))

/-- `alexify.matching.clean_bibtex_entry`: clean every string field in
place. -/
def clean_bibtex_entry (e : Entry) : Entry :=
  e.map (fun p => (p.1, cleanFieldVal p.1 p.2))

/-- An OpenAlex work as consumed by the scorer: its `id`, optional
`title`, optional `publication_year`, and the authorship display names
(`none` models an authorship whose nested `author.display_name` is
missing or null; the empty string models a present-but-falsy name). -/
structure Work where
  id : List Char
  title : Option (List Char)
  publication_year : Option Int
  authorships : List (Option (List Char))
deriving DecidableEq

/-- Python `int(s)`: optional surrounding whitespace, optional sign,
at least one digit (digit-group underscores are not modelled). -/
def pyParseInt (s : List Char) : Option Int :=
  let t := pyStrip s
  let core : Option (Bool × List Char) :=
    match t with
    | '-' :: ds => some (true, ds)
    | '+' :: ds => some (false, ds)
    | ds => some (false, ds)
  match core with
  | some (neg, ds) =>
    if ds = [] ∨ ¬(ds.all (fun c => 48 ≤ c.toNat ∧ c.toNat ≤ 57)) then none
    else
      let n : Nat := ds.foldl (fun a c => a * 10 + (c.toNat - 48)) 0
      some (if neg then -(n : Int) else (n : Int))
  | none => none

/-- `alexify.core.compute_metadata_score`: 50 base, adjusted by the
year gap when both years are present (and `publication_year` truthy),
clamped to `[0,100]`. -/
def compute_metadata_score (e : Entry) (w : Work) : ℚ :=
  let meta : ℚ := 50
  let bibYearStr := pyStrip (getFieldD e ['y','e','a','r'])
  let meta :=
    match w.publication_year with
    | some oaYear =>
      if bibYearStr ≠ [] ∧ oaYear ≠ 0 then
        match pyParseInt bibYearStr with
        | some bibYear =>
          let diff := (bibYear - oaYear).natAbs
          if diff = 0 then meta + 10
          else if diff = 1 then meta + 5
          else if diff ≤ 5 then meta - 5
          else meta - 15
        | none => meta
      else meta
    | none => meta
  max 0 (min meta 100)

/-- The authorship display-name extraction loop of
`compute_overall_score`: keep present, truthy display names. -/
def authorshipNames (w : Work) : List (List Char) :=
  w.authorships.filterMap (fun a =>
    match a with
    | some s => if s ≠ [] then some s else none
    | none => none)

/-- `alexify.core.compute_overall_score`: title 50%, authors 30%,
metadata 20%, clamped to `[0,100]`. -/
def compute_overall_score (e : Entry) (w : Work) : ℚ :=
  let title_score := fuzzy_match_titles (getField e ['t','i','t','l','e']) w.title
      (7 / 10) (3 / 10)
  let authors_bib := parse_bibtex_authors (getFieldD e ['a','u','t','h','o','r'])
  let author_score := fuzzy_match_authors authors_bib (authorshipNames w) 70
  let m_score := compute_metadata_score e w
  max 0 (min (1 / 2 * title_score + 3 / 10 * author_score + 1 / 5 * m_score) 100)

/-- `alexify.core._extract_short_id_if_needed`. -/
def extract_short_id_if_needed (wid : List Char) : List Char :=
  if ("https://openalex.org/".data).isPrefixOf wid
  then (wid.reverse.takeWhile (fun c => c ≠ '/')).reverse
  else wid

/-- Stable descending insertion by score (`scored.sort(key=score,
reverse=True)` — Python's sort is stable). -/
def insertScored (x : ℚ × Work) : List (ℚ × Work) → List (ℚ × Work)
  | [] => [x]
  | y :: ys => if y.1 < x.1 then x :: y :: ys else y :: insertScored x ys

def sortScoredDesc : List (ℚ × Work) → List (ℚ × Work)
  | [] => []
  | x :: xs => insertScored x (sortScoredDesc xs)

/-- The observable outcome of `process_bib_entry_by_title`: the
`(changed, matched)` return value, the entry (mutated in place by the
Python code), and counters for the retrieval calls made and candidates
scored. -/
structure ProcOutcome where
  changed : Bool
  matched : Bool
  entry : Entry
  retrievals : Nat
  scoredCount : Nat
deriving DecidableEq

/-- The candidate set fetched for an entry: the arguments that
`process_bib_entry_by_title` passes to
`fetch_all_candidates_for_entry`, applied to an oracle `fetch`
modelling the network boundary. -/
def candidatesFor (e : Entry)
    (fetch : List Char → List Char → List Char → List Work) : List Work :=
  let title := getFieldD e ['t','i','t','l','e']
  let authors := parse_bibtex_authors (getFieldD e ['a','u','t','h','o','r'])
  let first_author_ln :=
    match authors with
    | [] => []
    | a :: _ => (split_name_components a).2.2
  let year := pyStrip (getFieldD e ['y','e','a','r'])
  fetch title first_author_ln year

/-- `alexify.core.process_bib_entry_by_title`.  The network fetch is an
oracle argument; `userAccept` models the human's answer to the
interactive prompt. -/
def process_bib_entry_by_title (entry : Entry)
    (fetch : List Char → List Char → List Char → List Work)
    (userAccept : Bool) (user_interaction strict : Bool) : ProcOutcome :=
  if hasField entry ['o','p','e','n','a','l','e','x'] then
    ⟨false, true, entry, 0, 0⟩
  else
    let entry := clean_bibtex_entry entry
    let title := getFieldD entry ['t','i','t','l','e']
    if title = [] then ⟨false, false, entry, 0, 0⟩
    else
      let candidates := candidatesFor entry fetch
      if candidates = [] then ⟨false, false, entry, 1, 0⟩
      else
        let scored := sortScoredDesc
            (candidates.map (fun w => (compute_overall_score entry w, w)))
        let high : ℚ := if strict then 90 else 85
        let maybe : ℚ := if strict then 70 else 60
        match scored with
        | [] => ⟨false, false, entry, 1, candidates.length⟩
        | (best_score, best_work) :: _ =>
          let wid := extract_short_id_if_needed best_work.id
          if high ≤ best_score then
            ⟨true, true, setField entry ['o','p','e','n','a','l','e','x'] wid, 1,
             candidates.length⟩
          else if maybe ≤ best_score then
            if user_interaction then
              if userAccept then
                ⟨true, true, setField entry ['o','p','e','n','a','l','e','x'] wid, 1,
                 candidates.length⟩
              else ⟨false, false, entry, 1, candidates.length⟩
            else
              ⟨true, true, setField entry ['o','p','e','n','a','l','e','x'] wid, 1,
               candidates.length⟩
          else ⟨false, false, entry, 1, candidates.length⟩

/-! ## Batch processing (`alexify.core.handle_process`) -/

/-- Truthiness of the `doi` field as tested by `handle_process`
(`isinstance(e.get("doi"), str) and e["doi"]`; in this embedding all
field values are strings). -/
def truthyDoi (e : Entry) : Bool :=
  match getField e ['d','o','i'] with
  | some v => v ≠ []
  | none => false

/-- One step of `process_bib_entries_by_dois`: `if wid: entry["openalex"]
= wid` for the resolution result paired with this entry. -/
def doiApply (e : Entry) (r : Option (List Char)) : Entry :=
  match r with
  | some w => if w ≠ [] then setField e ['o','p','e','n','a','l','e','x'] w else e
  | none => e

/-- The entry-processing loop of `handle_process`: entries with a
truthy DOI consume the next batch DOI-resolution result (`zip`
semantics — results beyond either list are dropped), all other entries
go through title-based fuzzy matching.  Returns the final entries (the
in-place mutations of the Python code) together with the list of
entries submitted to `process_bib_entry_by_title`, in processing
order. -/
def handleProcessEntries
    (fetch : List Char → List Char → List Char → List Work)
    (userAccept user_interaction strict : Bool) :
    List Entry → List (Option (List Char)) → List Entry × List Entry
  | [], _ => ([], [])
  | e :: rest, doiResults =>
    if truthyDoi e then
      match doiResults with
      | r :: rs =>
        let p := handleProcessEntries fetch userAccept user_interaction strict rest rs
        (doiApply e r :: p.1, p.2)
      | [] =>
        let p := handleProcessEntries fetch userAccept user_interaction strict rest []
        (e :: p.1, p.2)
    else
      let p := handleProcessEntries fetch userAccept user_interaction strict rest doiResults
      ((process_bib_entry_by_title e fetch userAccept user_interaction strict).entry
         :: p.1,
       e :: p.2)

/-! ## Lemmas: whitespace tokenization -/

theorem takeWhile_append_all (p : Char → Bool) (xs ys : List Char)
    (h : ∀ x ∈ xs, p x = true) :
    (xs ++ ys).takeWhile p = xs ++ ys.takeWhile p := by
  induction xs with
  | nil => simp
  | cons c rest ih =>
    have hc : p c = true := h c (by simp)
    simp only [List.cons_append, List.takeWhile_cons, hc, if_true]
    rw [ih (fun x hx => h x (by simp [hx]))]

theorem dropWhile_append_all (p : Char → Bool) (xs ys : List Char)
    (h : ∀ x ∈ xs, p x = true) :
    (xs ++ ys).dropWhile p = ys.dropWhile p := by
  induction xs with
  | nil => simp
  | cons c rest ih =>
    have hc : p c = true := h c (by simp)
    simp only [List.cons_append, List.dropWhile_cons, hc, if_true]
    exact ih (fun x hx => h x (by simp [hx]))

theorem takeWhile_all_eq_self (p : Char → Bool) (xs : List Char)
    (h : ∀ x ∈ xs, p x = true) : xs.takeWhile p = xs := by
  have := takeWhile_append_all p xs [] h
  simpa using this

theorem dropWhile_all_eq_nil (p : Char → Bool) (xs : List Char)
    (h : ∀ x ∈ xs, p x = true) : xs.dropWhile p = [] := by
  have := dropWhile_append_all p xs [] h
  simpa using this

theorem splitWsF_congr :
    ∀ fuel s, s.length ≤ fuel → splitWsF fuel s = splitWsF s.length s := by
  intro fuel
  induction fuel using Nat.strong_induction_on with
  | _ fuel ih =>
    intro s hs
    match fuel, s with
    | 0, s =>
      have : s = [] := List.length_eq_zero.1 (Nat.le_zero.1 hs)
      subst this; rfl
    | fuel + 1, [] => simp [splitWsF]
    | fuel + 1, c :: rest =>
      have hr : rest.length ≤ fuel := by simpa using Nat.le_of_succ_le_succ hs
      simp only [List.length_cons, splitWsF]
      by_cases hc : isPySpace c
      · simp only [hc, if_true]
        rw [ih fuel (Nat.lt_succ_self _) rest hr,
            ih rest.length (Nat.lt_succ_of_le hr) rest (Nat.le_refl _)]
      · simp only [hc, if_false, Bool.false_eq_true]
        have hd : (rest.dropWhile (fun d => !isPySpace d)).length ≤ rest.length :=
          dropWhile_length_le _ rest
        rw [ih fuel (Nat.lt_succ_self _) _ (le_trans hd hr),
            ih rest.length (Nat.lt_succ_of_le hr) _ hd]

theorem splitWs_nil : splitWs [] = [] := rfl

theorem splitWs_cons (c : Char) (rest : List Char) :
    splitWs (c :: rest) =
      if isPySpace c then splitWs rest
      else (c :: rest.takeWhile (fun d => !isPySpace d)) ::
           splitWs (rest.dropWhile (fun d => !isPySpace d)) := by
  show splitWsF (rest.length + 1) (c :: rest) = _
  simp only [splitWsF]
  by_cases hc : isPySpace c
  · simp only [hc, if_true]; rfl
  · simp only [hc, if_false, Bool.false_eq_true]
    rw [splitWsF_congr rest.length _ (dropWhile_length_le _ rest)]
    rfl

theorem splitWs_token_ne_nil :
    ∀ s w, w ∈ splitWs s → w ≠ [] := by
  have key : ∀ fuel s w, w ∈ splitWsF fuel s → w ≠ [] := by
    intro fuel
    induction fuel with
    | zero => intro s w hw; simp [splitWsF] at hw
    | succ fuel ih =>
      intro s w hw
      match s with
      | [] => simp [splitWsF] at hw
      | c :: rest =>
        simp only [splitWsF] at hw
        by_cases hc : isPySpace c
        · simp only [hc, if_true] at hw; exact ih rest w hw
        · simp only [hc, if_false, Bool.false_eq_true, List.mem_cons] at hw
          rcases hw with h | h
          · simp [h]
          · exact ih _ w h
  intro s w hw; exact key s.length s w hw

theorem splitWs_token_no_space :
    ∀ s w, w ∈ splitWs s → ∀ c ∈ w, isPySpace c = false := by
  have key : ∀ fuel s w, w ∈ splitWsF fuel s → ∀ c ∈ w, isPySpace c = false := by
    intro fuel
    induction fuel with
    | zero => intro s w hw; simp [splitWsF] at hw
    | succ fuel ih =>
      intro s w hw c hc
      match s with
      | [] => simp [splitWsF] at hw
      | d :: rest =>
        simp only [splitWsF] at hw
        by_cases hd : isPySpace d
        · simp only [hd, if_true] at hw; exact ih rest w hw c hc
        · simp only [hd, if_false, Bool.false_eq_true, List.mem_cons] at hw
          rcases hw with h | h
          · subst h
            rcases List.mem_cons.1 hc with rfl | hmem
            · simpa using hd
            · have := List.mem_takeWhile_imp hmem
              simpa using this
          · exact ih _ w h c hc
  intro s w hw; exact key s.length s w hw

theorem splitWs_token_chars :
    ∀ s w, w ∈ splitWs s → ∀ c ∈ w, c ∈ s := by
  have key : ∀ fuel s w, w ∈ splitWsF fuel s → ∀ c ∈ w, c ∈ s := by
    intro fuel
    induction fuel with
    | zero => intro s w hw; simp [splitWsF] at hw
    | succ fuel ih =>
      intro s w hw c hc
      match s with
      | [] => simp [splitWsF] at hw
      | d :: rest =>
        simp only [splitWsF] at hw
        by_cases hd : isPySpace d
        · simp only [hd, if_true] at hw
          exact List.mem_cons_of_mem d (ih rest w hw c hc)
        · simp only [hd, if_false, Bool.false_eq_true, List.mem_cons] at hw
          rcases hw with h | h
          · subst h
            rcases List.mem_cons.1 hc with rfl | hmem
            · simp
            · exact List.mem_cons_of_mem d ((List.takeWhile_prefix _).subset hmem)
          · have := ih _ w h c hc
            exact List.mem_cons_of_mem d ((List.dropWhile_sublist _).subset this)
  intro s w hw; exact key s.length s w hw

theorem joinSpaces_cons_of_ne (w : List Char) (ws : List (List Char))
    (h : ws ≠ []) : joinSpaces (w :: ws) = w ++ ' ' :: joinSpaces ws := by
  match ws with
  | [] => exact absurd rfl h
  | v :: vs => rfl

/-- A "clean" token list: every token nonempty and whitespace-free. -/
def CleanToks (L : List (List Char)) : Prop :=
  ∀ w ∈ L, w ≠ [] ∧ ∀ c ∈ w, isPySpace c = false

theorem splitWs_clean (s : List Char) : CleanToks (splitWs s) :=
  fun w hw => ⟨splitWs_token_ne_nil s w hw, splitWs_token_no_space s w hw⟩

/-- Tokenizing a clean join recovers the token list. -/
theorem splitWs_joinSpaces (L : List (List Char)) (h : CleanToks L) :
    splitWs (joinSpaces L) = L := by
  induction L with
  | nil => simp [joinSpaces, splitWs_nil]
  | cons w ws ih =>
    obtain ⟨hne, hnos⟩ := h w (by simp)
    match w with
    | [] => exact absurd rfl hne
    | c :: rest =>
      have hc : isPySpace c = false := hnos c (by simp)
      have hrest : ∀ x ∈ rest, (!isPySpace x) = true := by
        intro x hx; simp [hnos x (by simp [hx])]
      match ws with
      | [] =>
        simp only [joinSpaces, splitWs_cons, hc, Bool.false_eq_true, if_false]
        rw [takeWhile_all_eq_self _ rest hrest, dropWhile_all_eq_nil _ rest hrest]
        simp [splitWs_nil]
      | v :: vs =>
        rw [joinSpaces_cons_of_ne _ _ (by simp)]
        simp only [List.cons_append, splitWs_cons, hc, Bool.false_eq_true, if_false]
        rw [takeWhile_append_all _ rest _ hrest, dropWhile_append_all _ rest _ hrest]
        have hsp : isPySpace ' ' = true := by decide
        simp only [List.takeWhile_cons, List.dropWhile_cons, hsp, Bool.not_true,
          Bool.false_eq_true, if_false, List.append_nil, splitWs_cons, if_true]
        rw [ih (fun x hx => h x (by simp [hx]))]

theorem splitWs_single_clean (w : List Char) (hne : w ≠ [])
    (hnos : ∀ c ∈ w, isPySpace c = false) : splitWs w = [w] := by
  have := splitWs_joinSpaces [w] (by intro x hx; simp at hx; subst hx; exact ⟨hne, hnos⟩)
  simpa [joinSpaces] using this

theorem joinSpaces_eq_nil_iff (L : List (List Char)) (h : CleanToks L) :
    joinSpaces L = [] ↔ L = [] := by
  constructor
  · intro hj
    match L with
    | [] => rfl
    | w :: ws =>
      obtain ⟨hne, _⟩ := h w (by simp)
      match ws with
      | [] => exact absurd (by simpa [joinSpaces] using hj) hne
      | v :: vs =>
        rw [joinSpaces_cons_of_ne _ _ (by simp)] at hj
        rcases List.append_eq_nil.1 hj with ⟨h1, h2⟩
        exact absurd h1 hne
  · intro h; simp [h, joinSpaces]

/-! ## Lemmas: SequenceMatcher bounds -/

theorem sumKs_append (l1 l2 : List (Nat × Nat × Nat)) :
    sumKs (l1 ++ l2) = sumKs l1 + sumKs l2 := by
  simp [sumKs]

theorem sumKs_cons (t : Nat × Nat × Nat) (l : List (Nat × Nat × Nat)) :
    sumKs (t :: l) = t.2.2 + sumKs l := by
  simp [sumKs]

theorem candPairs_mem {alo ahi blo bhi k : Nat} {p : Nat × Nat}
    (h : p ∈ candPairs alo ahi blo bhi k) :
    alo ≤ p.1 ∧ p.1 < alo + (ahi - alo + 1 - k) ∧
    blo ≤ p.2 ∧ p.2 < blo + (bhi - blo + 1 - k) := by
  simp only [candPairs, List.mem_flatMap, List.mem_map] at h
  obtain ⟨i, hi, j, hj, rfl⟩ := h
  have h1 := List.mem_range'_1.1 hi
  have h2 := List.mem_range'_1.1 hj
  exact ⟨h1.1, h1.2, h2.1, h2.2⟩

theorem findLongestMatch_pos_spec (a b : List Char) (alo ahi blo bhi : Nat)
    (hne : (findLongestMatch a b alo ahi blo bhi).2.2 ≠ 0) :
    alo ≤ (findLongestMatch a b alo ahi blo bhi).1 ∧
    (findLongestMatch a b alo ahi blo bhi).1 +
      (findLongestMatch a b alo ahi blo bhi).2.2 ≤ ahi ∧
    blo ≤ (findLongestMatch a b alo ahi blo bhi).2.1 ∧
    (findLongestMatch a b alo ahi blo bhi).2.1 +
      (findLongestMatch a b alo ahi blo bhi).2.2 ≤ bhi := by
  unfold findLongestMatch at hne ⊢
  cases hfs : (List.range (min (ahi - alo) (bhi - blo) + 1)).reverse.findSome? (fun k =>
      if k = 0 then none
      else ((candPairs alo ahi blo bhi k).find?
              (fun p => isBlock a b p.1 p.2 k)).map (fun p => (p.1, p.2, k))) with
  | none => rw [hfs] at hne; simp at hne
  | some r =>
    rw [hfs] at hne
    dsimp only at hne ⊢
    obtain ⟨k, hkmem, hk⟩ := List.exists_of_findSome?_eq_some hfs
    by_cases hk0 : k = 0
    · simp [hk0] at hk
    · simp only [hk0, if_false] at hk
      obtain ⟨p, hfind, hpr⟩ := Option.map_eq_some'.1 hk
      have hmem := List.mem_of_find?_eq_some hfind
      have hcp := candPairs_mem hmem
      have hkK : k ≤ min (ahi - alo) (bhi - blo) := by
        have h5 : k ∈ List.range (min (ahi - alo) (bhi - blo) + 1) :=
          List.mem_reverse.1 hkmem
        have := List.mem_range.1 h5
        omega
      have hkA : k ≤ ahi - alo := le_trans hkK (Nat.min_le_left _ _)
      have hkB : k ≤ bhi - blo := le_trans hkK (Nat.min_le_right _ _)
      subst hpr
      simp only
      refine ⟨hcp.1, ?_, hcp.2.2.1, ?_⟩
      · have h6 := hcp.2.1
        omega
      · have h6 := hcp.2.2.2
        omega

theorem matchingBlocksAux_le (a b : List Char) :
    ∀ fuel alo ahi blo bhi,
      sumKs (matchingBlocksAux a b fuel alo ahi blo bhi) ≤ ahi - alo ∧
      sumKs (matchingBlocksAux a b fuel alo ahi blo bhi) ≤ bhi - blo := by
  intro fuel
  induction fuel with
  | zero => intro alo ahi blo bhi; simp [matchingBlocksAux, sumKs]
  | succ fuel ih =>
    intro alo ahi blo bhi
    simp only [matchingBlocksAux]
    cases hflm : findLongestMatch a b alo ahi blo bhi with
    | mk i jk =>
      cases jk with
      | mk j k =>
        by_cases hk : k = 0
        · simp [hk, sumKs]
        · simp only [hk, if_false]
          have hspec := findLongestMatch_pos_spec a b alo ahi blo bhi
              (by rw [hflm]; exact hk)
          rw [hflm] at hspec
          dsimp only at hspec
          obtain ⟨h1, h2, h3, h4⟩ := hspec
          rw [sumKs_append, sumKs_cons]
          have ihl := ih alo i blo j
          have ihr := ih (i + k) ahi (j + k) bhi
          dsimp only at ihl ihr ⊢
          omega

theorem matchTotal_le (a b : List Char) :
    sumKs (getMatchingBlocks a b) ≤ a.length ∧
    sumKs (getMatchingBlocks a b) ≤ b.length := by
  have hc : ∀ l acc, sumKs (gmbCollapse acc l) = acc.2.2 + sumKs l := by
    intro l
    induction l with
    | nil =>
      intro acc
      obtain ⟨i1, j1, k1⟩ := acc
      by_cases hk : k1 = 0 <;> simp [gmbCollapse, hk, sumKs]
    | cons t rest ih =>
      intro acc
      obtain ⟨i1, j1, k1⟩ := acc
      obtain ⟨i2, j2, k2⟩ := t
      simp only [gmbCollapse]
      by_cases hadj : i1 + k1 = i2 ∧ j1 + k1 = j2
      · rw [if_pos hadj, ih]
        rw [sumKs_cons]
        dsimp only
        omega
      · rw [if_neg hadj]
        by_cases hk : k1 = 0
        · simp only [hk, ne_eq, not_true_eq_false, if_false, ih, sumKs_cons]
          omega
        · simp only [ne_eq, hk, not_false_eq_true, if_true, sumKs_cons, ih]
  have key := matchingBlocksAux_le a b (a.length + 1) 0 a.length 0 b.length
  simp only [Nat.sub_zero] at key
  have hone : sumKs [((a.length, b.length, 0) : Nat × Nat × Nat)] = 0 := by
    simp [sumKs]
  simp only [getMatchingBlocks, sumKs_append, hc, hone]
  omega

theorem seqRatio_nonneg (a b : List Char) : 0 ≤ seqRatio a b := by
  unfold seqRatio
  by_cases h : a.length + b.length = 0
  · simp [h]
  · simp only [h, if_false]
    positivity

theorem seqRatio_le_one (a b : List Char) : seqRatio a b ≤ 1 := by
  unfold seqRatio
  by_cases h : a.length + b.length = 0
  · simp [h]
  · simp only [h, if_false]
    have hpos : (0 : ℚ) < (a.length : ℚ) + (b.length : ℚ) := by
      have := Nat.pos_of_ne_zero h
      exact_mod_cast this
    rw [div_le_one (by exact_mod_cast hpos)]
    have hM := matchTotal_le a b
    have ha : (sumKs (getMatchingBlocks a b) : ℚ) ≤ a.length := by
      exact_mod_cast hM.1
    have hb : (sumKs (getMatchingBlocks a b) : ℚ) ≤ b.length := by
      exact_mod_cast hM.2
    push_cast at ha hb ⊢
    linarith

theorem ratFloor_eq_floor (q : ℚ) : ratFloor q = ⌊q⌋ := by
  rw [Rat.floor_def]; rfl

theorem pyRound_bounds {q lo hi : ℚ} (hlo : lo ≤ q) (hhi : q ≤ hi) :
    (⌊lo⌋ : ℤ) ≤ pyRound q ∧ pyRound q ≤ ⌈hi⌉ := by
  unfold pyRound
  rw [ratFloor_eq_floor]
  have hfl : (⌊lo⌋ : ℤ) ≤ ⌊q⌋ := Int.floor_le_floor hlo
  have hqf : (⌊q⌋ : ℚ) ≤ q := Int.floor_le q
  have hqc : ⌊q⌋ ≤ ⌈hi⌉ := le_trans (Int.floor_le_floor hhi) (Int.floor_le_ceil hi)
  by_cases h1 : q - (⌊q⌋ : ℚ) < 1 / 2
  · simp only [h1, if_true]; exact ⟨hfl, hqc⟩
  · simp only [h1, if_false]
    have hplus : ⌊q⌋ + 1 ≤ ⌈hi⌉ := by
      have hhalf : (⌊q⌋ : ℚ) + 1 / 2 ≤ q := by
        push_neg at h1; linarith
      have : (⌊q⌋ : ℚ) < hi := by linarith
      have hlt : ⌊q⌋ < ⌈hi⌉ := by
        by_contra hcon
        push_neg at hcon
        have := Int.le_ceil hi
        have hcq : (⌈hi⌉ : ℚ) ≤ ⌊q⌋ := by exact_mod_cast hcon
        linarith
      omega
    by_cases h2 : 1 / 2 < q - (⌊q⌋ : ℚ)
    · simp only [h2, if_true]; exact ⟨by omega, hplus⟩
    · simp only [h2, if_false]
      by_cases h3 : ⌊q⌋ % 2 = 0
      · simp only [h3, if_true]; exact ⟨hfl, hqc⟩
      · simp only [h3, if_false]; exact ⟨by omega, hplus⟩

theorem fuzzRatio_bounds (s1 s2 : List Char) :
    0 ≤ fuzzRatio s1 s2 ∧ fuzzRatio s1 s2 ≤ 100 := by
  unfold fuzzRatio
  by_cases h : s1 = [] ∨ s2 = []
  · simp [h]
  · simp only [h, if_false]
    have h1 : (0 : ℚ) ≤ 100 * seqRatio s1 s2 := by
      have := seqRatio_nonneg s1 s2; linarith
    have h2 : 100 * seqRatio s1 s2 ≤ 100 := by
      have := seqRatio_le_one s1 s2; linarith
    have := pyRound_bounds h1 h2
    simpa using this

theorem maxListQ_le {l : List ℚ} {c : ℚ} (h0 : 0 ≤ c)
    (h : ∀ q ∈ l, q ≤ c) : maxListQ l ≤ c := by
  induction l with
  | nil => simpa [maxListQ]
  | cons q rest ih =>
    match rest with
    | [] => simpa [maxListQ] using h q (by simp)
    | r :: rs =>
      simp only [maxListQ, max_le_iff]
      refine ⟨h q (by simp), ?_⟩
      exact ih (fun x hx => h x (by simp [List.mem_cons] at hx ⊢; tauto))

theorem maxListQ_nonneg {l : List ℚ} (h : ∀ q ∈ l, 0 ≤ q) :
    0 ≤ maxListQ l := by
  induction l with
  | nil => simp [maxListQ]
  | cons q rest ih =>
    match rest with
    | [] => simpa [maxListQ] using h q (by simp)
    | r :: rs =>
      simp only [maxListQ, le_max_iff]
      exact Or.inl (h q (by simp))

theorem partialScan_bounds (shorter longer : List Char) :
    ∀ blocks scores, (∀ q ∈ scores, 0 ≤ q ∧ q ≤ 1) →
      0 ≤ partialScan shorter longer blocks scores ∧
      partialScan shorter longer blocks scores ≤ 100 := by
  intro blocks
  induction blocks with
  | nil =>
    intro scores hs
    simp only [partialScan]
    have h1 : (0 : ℚ) ≤ 100 * maxListQ scores := by
      have := maxListQ_nonneg (l := scores) (fun q hq => (hs q hq).1)
      linarith
    have h2 : 100 * maxListQ scores ≤ 100 := by
      have := maxListQ_le (l := scores) (c := 1) (by norm_num)
          (fun q hq => (hs q hq).2)
      linarith
    have := pyRound_bounds h1 h2
    simpa using this
  | cons blk rest ih =>
    intro scores hs
    obtain ⟨bi, bj, bk⟩ := blk
    simp only [partialScan]
    by_cases hr : (199 : ℚ) / 200 <
        seqRatio shorter ((longer.drop (bj - bi)).take shorter.length)
    · simp [hr]
    · simp only [hr, if_false]
      refine ih _ ?_
      intro q hq
      rcases List.mem_append.1 hq with h | h
      · exact hs q h
      · simp only [List.mem_singleton] at h
        subst h
        exact ⟨seqRatio_nonneg _ _, seqRatio_le_one _ _⟩

theorem fuzzPartialRatio_bounds (s1 s2 : List Char) :
    0 ≤ fuzzPartialRatio s1 s2 ∧ fuzzPartialRatio s1 s2 ≤ 100 := by
  unfold fuzzPartialRatio
  by_cases h : s1 = [] ∨ s2 = []
  · simp [h]
  · simp only [h, if_false]
    exact partialScan_bounds _ _ _ [] (by simp)

theorem token_set_ratio_bounds (s1 s2 : List Char) :
    0 ≤ token_set_ratio s1 s2 ∧ token_set_ratio s1 s2 ≤ 100 := by
  unfold token_set_ratio
  by_cases h1 : full_process s1 = []
  · simp [h1]
  · simp only [h1, if_false]
    by_cases h2 : full_process s2 = []
    · simp [h2]
    · simp only [h2, if_false]
      constructor
      · simp only [le_max_iff]
        left; left
        exact (fuzzRatio_bounds _ _).1
      · simp only [max_le_iff]
        exact ⟨⟨(fuzzRatio_bounds _ _).2, (fuzzRatio_bounds _ _).2⟩,
               (fuzzRatio_bounds _ _).2⟩

/-! ## Lemmas: SequenceMatcher on identical strings -/

theorem findLongestMatch_self (s : List Char) :
    findLongestMatch s s 0 s.length 0 s.length = (0, 0, s.length) := by
  unfold findLongestMatch
  simp only [Nat.sub_zero, Nat.min_self]
  rcases Nat.eq_zero_or_pos s.length with h0 | hpos
  · rw [h0]; rfl
  · have hn0 : s.length ≠ 0 := Nat.pos_iff_ne_zero.1 hpos
    rw [List.range_succ, List.reverse_append]
    simp only [List.reverse_singleton, List.singleton_append, List.findSome?_cons]
    have hcp : candPairs 0 s.length 0 s.length s.length = [(0, 0)] := by
      unfold candPairs
      have h1 : s.length - 0 + 1 - s.length = 1 := by omega
      simp only [Nat.sub_zero] at h1 ⊢
      rw [h1, List.range'_one]
      rfl
    have hblk : isBlock s s 0 0 s.length = true := by
      unfold isBlock
      simp
    rw [if_neg hn0, hcp]
    simp only [List.find?_cons, hblk]
    rfl

theorem findLongestMatch_empty (a b : List Char) (alo ahi blo bhi : Nat)
    (h : ahi ≤ alo ∨ bhi ≤ blo) :
    findLongestMatch a b alo ahi blo bhi = (alo, blo, 0) := by
  unfold findLongestMatch
  have hmin : min (ahi - alo) (bhi - blo) = 0 := by
    rcases h with h | h
    · simp [Nat.sub_eq_zero_of_le h]
    · simp [Nat.sub_eq_zero_of_le h]
  rw [hmin]
  rfl

theorem matchingBlocksAux_empty (a b : List Char) (fuel alo ahi blo bhi : Nat)
    (h : ahi ≤ alo ∨ bhi ≤ blo) :
    matchingBlocksAux a b fuel alo ahi blo bhi = [] := by
  match fuel with
  | 0 => rfl
  | fuel + 1 =>
    simp only [matchingBlocksAux, findLongestMatch_empty a b alo ahi blo bhi h,
      if_true]

theorem getMatchingBlocks_self (s : List Char) (hne : s ≠ []) :
    getMatchingBlocks s s = [(0, 0, s.length), (s.length, s.length, 0)] := by
  have hn0 : s.length ≠ 0 := by
    intro h; exact hne (List.length_eq_zero.1 h)
  have haux : matchingBlocksAux s s (s.length + 1) 0 s.length 0 s.length =
      [(0, 0, s.length)] := by
    simp only [matchingBlocksAux, findLongestMatch_self s]
    rw [if_neg hn0]
    rw [matchingBlocksAux_empty s s s.length 0 0 0 0 (Or.inl (Nat.le_refl 0)),
        matchingBlocksAux_empty s s s.length (0 + s.length) s.length
          (0 + s.length) s.length (by omega)]
    rfl
  unfold getMatchingBlocks
  rw [haux]
  simp only [gmbCollapse, Nat.add_zero, Nat.zero_add]
  rw [if_pos (by exact ⟨by trivial, by trivial⟩)]
  simp only [gmbCollapse, ne_eq, hn0, not_false_eq_true, if_true]
  rfl

theorem seqRatio_self (s : List Char) (hne : s ≠ []) : seqRatio s s = 1 := by
  have hn0 : s.length ≠ 0 := by
    intro h; exact hne (List.length_eq_zero.1 h)
  unfold seqRatio
  rw [getMatchingBlocks_self s hne]
  have hsum : sumKs [(0, 0, s.length), (s.length, s.length, 0)] = s.length := by
    simp [sumKs]
  rw [hsum]
  rw [if_neg (by omega)]
  have hq : ((s.length : ℚ)) ≠ 0 := by exact_mod_cast hn0
  rw [div_eq_one_iff_eq (by intro hcon; apply hq; linarith)]
  ring

theorem fuzzRatio_self (s : List Char) (hne : s ≠ []) : fuzzRatio s s = 100 := by
  unfold fuzzRatio
  rw [if_neg (by simp [hne])]
  rw [seqRatio_self s hne]
  norm_num
  decide

theorem fuzzPartialRatio_self (s : List Char) (hne : s ≠ []) :
    fuzzPartialRatio s s = 100 := by
  unfold fuzzPartialRatio
  rw [if_neg (by simp [hne])]
  simp only [Nat.le_refl, if_true]
  rw [getMatchingBlocks_self s hne]
  simp only [partialScan, Nat.sub_zero, List.drop_zero, List.take_length]
  rw [seqRatio_self s hne]
  rw [if_pos (by norm_num)]

/-! ## Lemmas: characters and normalization structure -/

theorem toNat_ofNat_small {n : Nat} (h : n < 55296) :
    (Char.ofNat n).toNat = n := by
  unfold Char.ofNat
  rw [dif_pos (Or.inl h)]
  rfl

theorem pyToLower_toNat (c : Char) :
    (pyToLower c).toNat =
      if 65 ≤ c.toNat ∧ c.toNat ≤ 90 then c.toNat + 32 else c.toNat := by
  unfold pyToLower
  by_cases h : 65 ≤ c.toNat ∧ c.toNat ≤ 90
  · rw [if_pos h, if_pos h, toNat_ofNat_small (by omega)]
  · rw [if_neg h, if_neg h]

theorem isPySpace_toNat (c : Char) :
    isPySpace c = decide (c.toNat = 9 ∨ c.toNat = 10 ∨ c.toNat = 11 ∨
      c.toNat = 12 ∨ c.toNat = 13 ∨ c.toNat = 28 ∨ c.toNat = 29 ∨
      c.toNat = 30 ∨ c.toNat = 31 ∨ c.toNat = 32) := by
  simp [isPySpace, pySpaceCodes, List.contains]

theorem isPyPunct_toNat (c : Char) :
    isPyPunct c = decide ((33 ≤ c.toNat ∧ c.toNat ≤ 47) ∨
      (58 ≤ c.toNat ∧ c.toNat ≤ 64) ∨ (91 ≤ c.toNat ∧ c.toNat ≤ 96) ∨
      (123 ≤ c.toNat ∧ c.toNat ≤ 126)) := by
  simp only [isPyPunct, pyPunctCodes, List.contains, List.elem_eq_mem,
    List.mem_cons, List.not_mem_nil, or_false, decide_eq_decide]
  omega

theorem isPySpace_pyToLower (c : Char) :
    isPySpace (pyToLower c) = isPySpace c := by
  rw [isPySpace_toNat, isPySpace_toNat, pyToLower_toNat]
  by_cases h : 65 ≤ c.toNat ∧ c.toNat ≤ 90
  · rw [if_pos h]; simp only [decide_eq_decide]; omega
  · rw [if_neg h]

theorem isPyPunct_pyToLower (c : Char) :
    isPyPunct (pyToLower c) = isPyPunct c := by
  rw [isPyPunct_toNat, isPyPunct_toNat, pyToLower_toNat]
  by_cases h : 65 ≤ c.toNat ∧ c.toNat ≤ 90
  · rw [if_pos h]; simp only [decide_eq_decide]; omega
  · rw [if_neg h]

theorem pyToLower_of_not_upper {c : Char}
    (h : ¬(65 ≤ c.toNat ∧ c.toNat ≤ 90)) : pyToLower c = c := by
  unfold pyToLower
  rw [if_neg h]

theorem pyToLower_idem (c : Char) : pyToLower (pyToLower c) = pyToLower c := by
  apply pyToLower_of_not_upper
  rw [pyToLower_toNat]
  by_cases h : 65 ≤ c.toNat ∧ c.toNat ≤ 90
  · rw [if_pos h]; omega
  · rw [if_neg h]; omega

theorem pyToLower_ascii {c : Char} (h : c.toNat < 128) :
    (pyToLower c).toNat < 128 := by
  rw [pyToLower_toNat]
  by_cases h2 : 65 ≤ c.toNat ∧ c.toNat ≤ 90
  · rw [if_pos h2]; omega
  · rw [if_neg h2]; omega

theorem asciiFold_ascii {c d : Char} (h : d ∈ asciiFold c) : d.toNat < 128 := by
  unfold asciiFold at h
  by_cases hc : c.toNat < 128
  · rw [if_pos hc] at h
    simp only [List.mem_singleton] at h
    subst h; exact hc
  · rw [if_neg hc] at h
    cases hf : asciiFoldTable.find? (fun p => p.1 = c) with
    | none => rw [hf] at h; simp at h
    | some p =>
      rw [hf] at h
      have hmem := List.mem_of_find?_eq_some hf
      have htable : ∀ q ∈ asciiFoldTable, ∀ e ∈ q.2, e.toNat < 128 := by decide
      exact htable p hmem d h

theorem asciiFold_of_ascii {c : Char} (h : c.toNat < 128) : asciiFold c = [c] := by
  unfold asciiFold
  rw [if_pos h]

theorem flatMap_asciiFold_fix {l : List Char} (h : ∀ c ∈ l, c.toNat < 128) :
    l.flatMap asciiFold = l := by
  induction l with
  | nil => rfl
  | cons c rest ih =>
    rw [List.flatMap_cons, asciiFold_of_ascii (h c (by simp)),
        ih (fun x hx => h x (by simp [hx]))]
    rfl

theorem map_fix {f : Char → Char} {l : List Char} (h : ∀ c ∈ l, f c = c) :
    l.map f = l := by
  induction l with
  | nil => rfl
  | cons c rest ih =>
    rw [List.map_cons, h c (by simp), ih (fun x hx => h x (by simp [hx]))]

theorem joinSpaces_chars {L : List (List Char)} {c : Char}
    (h : c ∈ joinSpaces L) : c = ' ' ∨ ∃ w ∈ L, c ∈ w := by
  induction L with
  | nil => simp [joinSpaces] at h
  | cons w ws ih =>
    match ws with
    | [] =>
      right
      exact ⟨w, by simp, by simpa [joinSpaces] using h⟩
    | v :: vs =>
      rw [joinSpaces_cons_of_ne _ _ (by simp)] at h
      rcases List.mem_append.1 h with h1 | h1
      · exact Or.inr ⟨w, by simp, h1⟩
      · rcases List.mem_cons.1 h1 with rfl | h2
        · exact Or.inl rfl
        · rcases ih h2 with h3 | ⟨u, hu, hcu⟩
          · exact Or.inl h3
          · exact Or.inr ⟨u, by simp [hu], hcu⟩

theorem dropWhile_eq_self_of_head {p : Char → Bool} {l : List Char}
    (h : ∀ c, l.head? = some c → p c = false) : l.dropWhile p = l := by
  match l with
  | [] => rfl
  | c :: rest =>
    have := h c rfl
    simp [List.dropWhile_cons, this]

theorem joinSpaces_head {L : List (List Char)} (hL : L ≠ [])
    (hclean : CleanToks L) {c : Char} (h : (joinSpaces L).head? = some c) :
    isPySpace c = false := by
  match L with
  | [] => exact absurd rfl hL
  | w :: ws =>
    obtain ⟨hne, hnos⟩ := hclean w (by simp)
    match w with
    | [] => exact absurd rfl hne
    | d :: rest =>
      have hd : isPySpace d = false := hnos d (by simp)
      match ws with
      | [] =>
        simp only [joinSpaces, List.head?_cons, Option.some.injEq] at h
        rw [← h]; exact hd
      | v :: vs =>
        rw [joinSpaces_cons_of_ne _ _ (by simp)] at h
        simp only [List.cons_append, List.head?_cons, Option.some.injEq] at h
        rw [← h]; exact hd

theorem joinSpaces_getLast {L : List (List Char)} (hL : L ≠ [])
    (hclean : CleanToks L) {c : Char} (h : (joinSpaces L).getLast? = some c) :
    isPySpace c = false := by
  induction L with
  | nil => exact absurd rfl hL
  | cons w ws ih =>
    match ws with
    | [] =>
      obtain ⟨hne, hnos⟩ := hclean w (by simp)
      have : c ∈ w := List.mem_of_mem_getLast? (by simpa [joinSpaces] using h)
      exact hnos c this
    | v :: vs =>
      rw [joinSpaces_cons_of_ne _ _ (by simp)] at h
      have hjne : joinSpaces (v :: vs) ≠ [] := by
        rw [ne_eq, joinSpaces_eq_nil_iff (v :: vs)
          (fun x hx => hclean x (by simp [hx]))]
        simp
      rw [List.getLast?_append_of_ne_nil _ (by simp)] at h
      obtain ⟨x, xs, hj⟩ := List.exists_cons_of_ne_nil hjne
      rw [hj, List.getLast?_cons_cons, ← hj] at h
      exact ih (by simp) (fun y hy => hclean y (by simp [hy])) h

theorem joinSpaces_mem {L : List (List Char)} {w : List Char} {c : Char}
    (hw : w ∈ L) (hc : c ∈ w) : c ∈ joinSpaces L := by
  induction L with
  | nil => simp at hw
  | cons v vs ih =>
    match vs with
    | [] =>
      simp only [List.mem_singleton] at hw
      subst hw
      simpa [joinSpaces] using hc
    | u :: us =>
      rw [joinSpaces_cons_of_ne _ _ (by simp)]
      rcases List.mem_cons.1 hw with rfl | h2
      · exact List.mem_append.2 (Or.inl hc)
      · exact List.mem_append.2 (Or.inr (List.mem_cons_of_mem _ (ih h2)))

theorem pyStrip_of_clean_ends {s : List Char}
    (h1 : ∀ c, s.head? = some c → isPySpace c = false)
    (h2 : ∀ c, s.getLast? = some c → isPySpace c = false) :
    pyStrip s = s := by
  unfold pyStrip
  rw [dropWhile_eq_self_of_head h1]
  rw [dropWhile_eq_self_of_head (fun c hc => h2 c (by rwa [List.head?_reverse] at hc))]
  exact List.reverse_reverse s

theorem pyStrip_join (F : List (List Char)) (hclean : CleanToks F) :
    pyStrip (joinSpaces F) = joinSpaces F := by
  match F with
  | [] => rfl
  | w :: ws =>
    exact pyStrip_of_clean_ends
      (fun c hc => joinSpaces_head (by simp) hclean hc)
      (fun c hc => joinSpaces_getLast (by simp) hclean hc)

theorem pyStrip_join_trailing (F : List (List Char)) (hclean : CleanToks F)
    (hne : F ≠ []) : pyStrip (joinSpaces F ++ [' ']) = joinSpaces F := by
  have hjne : joinSpaces F ≠ [] := by
    rw [ne_eq, joinSpaces_eq_nil_iff F hclean]; exact hne
  obtain ⟨x, xs, hx⟩ := List.exists_cons_of_ne_nil hjne
  have hxns : isPySpace x = false :=
    joinSpaces_head hne hclean (by rw [hx]; rfl)
  unfold pyStrip
  have hd1 : (joinSpaces F ++ [' ']).dropWhile isPySpace = joinSpaces F ++ [' '] := by
    apply dropWhile_eq_self_of_head
    intro c hc
    rw [hx] at hc
    simp only [List.cons_append, List.head?_cons, Option.some.injEq] at hc
    rw [← hc]; exact hxns
  rw [hd1, List.reverse_append]
  simp only [List.reverse_singleton, List.singleton_append, List.dropWhile_cons]
  rw [if_pos (by decide)]
  rw [dropWhile_eq_self_of_head (fun c hc =>
    joinSpaces_getLast hne hclean (by rwa [List.head?_reverse] at hc))]
  exact List.reverse_reverse _

theorem insertStr_mem {x w : List Char} {l : List (List Char)} :
    w ∈ insertStr x l ↔ w = x ∨ w ∈ l := by
  induction l with
  | nil => simp [insertStr]
  | cons y ys ih =>
    unfold insertStr
    by_cases h : lexLt y x
    · rw [if_pos h]
      simp only [List.mem_cons, ih]
      tauto
    · rw [if_neg h]
      simp only [List.mem_cons]

theorem sortStrs_mem {w : List Char} {L : List (List Char)} :
    w ∈ sortStrs L ↔ w ∈ L := by
  induction L with
  | nil => simp [sortStrs]
  | cons x xs ih =>
    unfold sortStrs
    rw [insertStr_mem, ih]
    simp

theorem sortStrs_length (L : List (List Char)) :
    (sortStrs L).length = L.length := by
  have hlen : ∀ (x : List Char) (l : List (List Char)),
      (insertStr x l).length = l.length + 1 := by
    intro x l
    induction l with
    | nil => rfl
    | cons y ys ih =>
      unfold insertStr
      by_cases h : lexLt y x
      · rw [if_pos h]; simp [ih]
      · rw [if_neg h]; simp
  induction L with
  | nil => rfl
  | cons x xs ih =>
    unfold sortStrs
    rw [hlen, ih]
    rfl

/-! ## Lemmas: structure of `normalize_text` output -/

theorem normalize_text_of_ne_nil {t : List Char} (h : t ≠ []) :
    normalize_text t = joinSpaces ((splitWs ((joinSpaces (splitWs
      ((t.flatMap asciiFold).filter (fun c => !isPyPunct c)))).map pyToLower)).filter
      (fun w => !STOPWORDS.contains w)) := by
  unfold normalize_text
  rw [if_neg h]

/-- The output of `normalize_text` is a clean join of non-stopword
tokens. -/
theorem normalize_text_tokens (x : List Char) :
    ∃ F, normalize_text x = joinSpaces F ∧ CleanToks F ∧
      ∀ w ∈ F, STOPWORDS.contains w = false := by
  by_cases hx : x = []
  · refine ⟨[], by simp [normalize_text, hx, joinSpaces], ?_, ?_⟩ <;>
      (intro w hw; simp at hw)
  · refine ⟨_, normalize_text_of_ne_nil hx, ?_, ?_⟩
    · intro w hw
      exact splitWs_clean _ w (List.mem_filter.1 hw).1
    · intro w hw
      have := (List.mem_filter.1 hw).2
      simpa using this

/-- Every character of a `normalize_text` output is ASCII,
non-punctuation, and fixed by lowercasing. -/
theorem normalize_text_chars (x : List Char) :
    ∀ c ∈ normalize_text x,
      c.toNat < 128 ∧ isPyPunct c = false ∧ pyToLower c = c := by
  intro c hc
  by_cases hx : x = []
  · rw [hx] at hc; simp [normalize_text] at hc
  · rw [normalize_text_of_ne_nil hx] at hc
    rcases joinSpaces_chars hc with rfl | ⟨w, hw, hcw⟩
    · refine ⟨by decide, by decide, ?_⟩
      apply pyToLower_of_not_upper
      decide
    · have hw2 : w ∈ splitWs ((joinSpaces (splitWs
          ((x.flatMap asciiFold).filter (fun c => !isPyPunct c)))).map pyToLower) :=
        (List.mem_filter.1 hw).1
      have hct3 := splitWs_token_chars _ w hw2 c hcw
      obtain ⟨d, hd, rfl⟩ := List.mem_map.1 hct3
      have hdprops : d.toNat < 128 ∧ isPyPunct d = false := by
        rcases joinSpaces_chars hd with rfl | ⟨w2, hw2b, hcw2⟩
        · exact ⟨by decide, by decide⟩
        · have hdt2 := splitWs_token_chars _ w2 hw2b d hcw2
          have h1 := (List.mem_filter.1 hdt2).1
          have h2 := (List.mem_filter.1 hdt2).2
          obtain ⟨e, _, hde⟩ := List.mem_flatMap.1 h1
          exact ⟨asciiFold_ascii hde, by simpa using h2⟩
      refine ⟨pyToLower_ascii hdprops.1, ?_, pyToLower_idem d⟩
      rw [isPyPunct_pyToLower]
      exact hdprops.2

/-- Every character of a `normalize_text` output is either a space or
the lowercasing of some character produced by accent-folding a source
character. -/
theorem normalize_text_chars_src (x : List Char) :
    ∀ c ∈ normalize_text x,
      c = ' ' ∨ ∃ d, (∃ e ∈ x, d ∈ asciiFold e) ∧ c = pyToLower d := by
  intro c hc
  by_cases hx : x = []
  · rw [hx] at hc; simp [normalize_text] at hc
  · rw [normalize_text_of_ne_nil hx] at hc
    rcases joinSpaces_chars hc with rfl | ⟨w, hw, hcw⟩
    · exact Or.inl rfl
    · right
      have hw2 : w ∈ splitWs ((joinSpaces (splitWs
          ((x.flatMap asciiFold).filter (fun c => !isPyPunct c)))).map pyToLower) :=
        (List.mem_filter.1 hw).1
      have hct3 := splitWs_token_chars _ w hw2 c hcw
      obtain ⟨d, hd, rfl⟩ := List.mem_map.1 hct3
      refine ⟨d, ?_, rfl⟩
      rcases joinSpaces_chars hd with rfl | ⟨w2, hw2b, hcw2⟩
      · have hwn := splitWs_token_no_space _ w hw2 _ hcw
        rw [isPySpace_pyToLower] at hwn
        exact absurd hwn (by decide)
      · have hdt2 := splitWs_token_chars _ w2 hw2b d hcw2
        have h1 := (List.mem_filter.1 hdt2).1
        obtain ⟨e, he, hde⟩ := List.mem_flatMap.1 h1
        exact ⟨e, he, hde⟩

/-! ## Idempotence of text normalization -/

theorem normalize_text_idem (x : List Char) :
    normalize_text (normalize_text x) = normalize_text x := by
  obtain ⟨F, hF, hclean, hstop⟩ := normalize_text_tokens x
  have hchars := normalize_text_chars x
  by_cases ho : normalize_text x = []
  · rw [ho]; rfl
  · have e1 : (normalize_text x).flatMap asciiFold = normalize_text x :=
      flatMap_asciiFold_fix (fun c hc => (hchars c hc).1)
    have e2 : (normalize_text x).filter (fun c => !isPyPunct c) =
        normalize_text x :=
      List.filter_eq_self.mpr (fun c hc => by simp [(hchars c hc).2.1])
    have e3 : splitWs (normalize_text x) = F := by
      rw [hF]; exact splitWs_joinSpaces F hclean
    have e4 : (normalize_text x).map pyToLower = normalize_text x :=
      map_fix (fun c hc => (hchars c hc).2.2)
    have e5 : F.filter (fun w => !STOPWORDS.contains w) = F :=
      List.filter_eq_self.mpr (fun w hw => by simpa using hstop w hw)
    rw [normalize_text_of_ne_nil ho, e1, e2, e3, ← hF, e4, e3, e5]
    exact hF.symm

/-! ## Saturation of the title scorer on identical normalized titles -/

/-- A lowercase ASCII alphanumeric character. -/
def LowerAlnum (c : Char) : Prop :=
  (48 ≤ c.toNat ∧ c.toNat ≤ 57) ∨ (97 ≤ c.toNat ∧ c.toNat ≤ 122)

theorem full_process_fix (F : List (List Char)) (hclean : CleanToks F)
    (halnum : ∀ w ∈ F, ∀ c ∈ w, LowerAlnum c) :
    full_process (joinSpaces F) = joinSpaces F := by
  have hchar : ∀ c ∈ joinSpaces F, c = ' ' ∨ LowerAlnum c := by
    intro c hc
    rcases joinSpaces_chars hc with rfl | ⟨w, hw, hcw⟩
    · exact Or.inl rfl
    · exact Or.inr (halnum w hw c hcw)
  have m1 : (joinSpaces F).filter (fun c => decide (c.toNat < 128)) =
      joinSpaces F := by
    apply List.filter_eq_self.mpr
    intro c hc
    rcases hchar c hc with rfl | h
    · decide
    · unfold LowerAlnum at h
      simp only [decide_eq_true_eq]
      omega
  have m2 : (joinSpaces F).map (fun c => if isPyWord c then c else ' ') =
      joinSpaces F := by
    apply map_fix
    intro c hc
    rcases hchar c hc with rfl | h
    · decide
    · unfold LowerAlnum at h
      have hw : isPyWord c = true := by
        unfold isPyWord
        simp only [Bool.or_eq_true, Bool.and_eq_true, decide_eq_true_eq,
          beq_iff_eq]
        omega
      rw [if_pos hw]
  have m3 : (joinSpaces F).map pyToLower = joinSpaces F := by
    apply map_fix
    intro c hc
    rcases hchar c hc with rfl | h
    · decide
    · unfold LowerAlnum at h
      exact pyToLower_of_not_upper (by omega)
  unfold full_process
  rw [m1, m2, m3]
  exact pyStrip_join F hclean

theorem token_set_ratio_self (F : List (List Char)) (hne : F ≠ [])
    (hclean : CleanToks F)
    (halnum : ∀ w ∈ F, ∀ c ∈ w, LowerAlnum c) :
    token_set_ratio (joinSpaces F) (joinSpaces F) = 100 := by
  have hjne : joinSpaces F ≠ [] := by
    rw [ne_eq, joinSpaces_eq_nil_iff F hclean]; exact hne
  have hfp : full_process (joinSpaces F) = joinSpaces F :=
    full_process_fix F hclean halnum
  have htok : tokenSet (joinSpaces F) = F.dedup := by
    unfold tokenSet
    rw [hfp, splitWs_joinSpaces F hclean]
  have hUclean : CleanToks F.dedup :=
    fun w hw => hclean w (List.mem_dedup.1 hw)
  have hUne : F.dedup ≠ [] := by
    obtain ⟨w, ws, hw⟩ := List.exists_cons_of_ne_nil hne
    intro hcon
    have : w ∈ F.dedup := List.mem_dedup.2 (by rw [hw]; simp)
    rw [hcon] at this
    simp at this
  have hSclean : CleanToks (sortStrs F.dedup) :=
    fun w hw => hUclean w (sortStrs_mem.1 hw)
  have hSne : sortStrs F.dedup ≠ [] := by
    intro hcon
    have := sortStrs_length F.dedup
    rw [hcon] at this
    exact hUne (List.length_eq_zero.1 this.symm)
  have hjne2 : joinSpaces (sortStrs F.dedup) ≠ [] := by
    rw [ne_eq, joinSpaces_eq_nil_iff _ hSclean]; exact hSne
  have hsect : tsSortedSect (joinSpaces F) (joinSpaces F) =
      joinSpaces (sortStrs F.dedup) := by
    unfold tsSortedSect
    rw [htok, List.filter_eq_self.mpr (fun a ha => by simpa using ha)]
  have hdiff : tsDiffJoin (joinSpaces F) (joinSpaces F) = [] := by
    unfold tsDiffJoin
    rw [htok]
    have : F.dedup.filter (fun t => !F.dedup.contains t) = [] := by
      rw [List.filter_eq_nil_iff]
      intro a ha
      simp [ha]
    rw [this]
    rfl
  unfold token_set_ratio
  rw [hfp, if_neg hjne, if_neg hjne, hsect, hdiff]
  have hstrip1 : pyStrip (joinSpaces (sortStrs F.dedup)) =
      joinSpaces (sortStrs F.dedup) := pyStrip_join _ hSclean
  have hstrip2 : pyStrip (joinSpaces (sortStrs F.dedup) ++ ' ' :: []) =
      joinSpaces (sortStrs F.dedup) :=
    pyStrip_join_trailing _ hSclean hSne
  rw [hstrip1, hstrip2]
  rw [fuzzRatio_self _ hjne2]
  simp

theorem fuzzy_match_titles_self (t : List Char)
    (hA : ∀ c ∈ t, (48 ≤ c.toNat ∧ c.toNat ≤ 57) ∨ (65 ≤ c.toNat ∧ c.toNat ≤ 90) ∨
      (97 ≤ c.toNat ∧ c.toNat ≤ 122) ∨ c = ' ')
    (hN : normalize_text t ≠ []) :
    fuzzy_match_titles (some t) (some t) (7 / 10) (3 / 10) = 100 := by
  obtain ⟨F, hF, hclean, _⟩ := normalize_text_tokens t
  have hFne : F ≠ [] := by
    intro hcon
    rw [hcon] at hF
    exact hN (by rw [hF]; rfl)
  have halnum : ∀ w ∈ F, ∀ c ∈ w, LowerAlnum c := by
    intro w hw c hc
    have hns : isPySpace c = false := (hclean w hw).2 c hc
    have hcmem : c ∈ normalize_text t := by
      rw [hF]; exact joinSpaces_mem hw hc
    rcases normalize_text_chars_src t c hcmem with rfl | ⟨d, ⟨e, he, hde⟩, rfl⟩
    · exact absurd hns (by decide)
    · rcases hA e he with h | h | h | rfl
      · have : asciiFold e = [e] := asciiFold_of_ascii (by omega)
        rw [this] at hde
        simp only [List.mem_singleton] at hde
        subst hde
        rw [pyToLower_of_not_upper (by omega)]
        exact Or.inl h
      · have : asciiFold e = [e] := asciiFold_of_ascii (by omega)
        rw [this] at hde
        simp only [List.mem_singleton] at hde
        subst hde
        right
        rw [pyToLower_toNat, if_pos h]
        omega
      · have : asciiFold e = [e] := asciiFold_of_ascii (by omega)
        rw [this] at hde
        simp only [List.mem_singleton] at hde
        subst hde
        rw [pyToLower_of_not_upper (by omega)]
        exact Or.inr h
      · have : asciiFold ' ' = [' '] := asciiFold_of_ascii (by decide)
        rw [this] at hde
        simp only [List.mem_singleton] at hde
        subst hde
        rw [isPySpace_pyToLower] at hns
        exact absurd hns (by decide)
  have htne : t ≠ [] := by
    intro hcon
    exact hN (by rw [hcon]; rfl)
  simp only [fuzzy_match_titles]
  rw [if_neg (by simp [htne])]
  rw [if_neg (by simp [hN])]
  rw [hF, token_set_ratio_self F hFne hclean halnum, ← hF,
      fuzzPartialRatio_self _ hN]
  norm_num

/-! ## Assorted supporting lemmas for the claim theorems -/

theorem clamp_bounds (x : ℚ) :
    0 ≤ max 0 (min x 100) ∧ max 0 (min x 100) ≤ 100 :=
  ⟨le_max_left 0 _, max_le (by norm_num) (le_trans (min_le_right x 100) (le_refl _))⟩

theorem anyNameMatch_eq_any (b : List Char) (θ : ℚ) (oas : List (List Char)) :
    anyNameMatch b θ oas = oas.any (fun o => decide (θ ≤ match_name_parts b o)) := by
  induction oas with
  | nil => rfl
  | cons o rest ih =>
    unfold anyNameMatch
    by_cases h : θ ≤ match_name_parts b o
    · simp [h]
    · simp only [h, if_false, List.any_cons, ih]
      simp [h]

theorem insertScored_length (x : ℚ × Work) (l : List (ℚ × Work)) :
    (insertScored x l).length = l.length + 1 := by
  induction l with
  | nil => rfl
  | cons y ys ih =>
    unfold insertScored
    by_cases h : y.1 < x.1
    · rw [if_pos h]; simp
    · rw [if_neg h]; simp [ih]

theorem sortScoredDesc_length (l : List (ℚ × Work)) :
    (sortScoredDesc l).length = l.length := by
  induction l with
  | nil => rfl
  | cons x xs ih =>
    unfold sortScoredDesc
    rw [insertScored_length, ih]
    rfl

theorem sortScoredDesc_ne_nil {l : List (ℚ × Work)} (h : l ≠ []) :
    sortScoredDesc l ≠ [] := by
  intro hcon
  have := sortScoredDesc_length l
  rw [hcon] at this
  exact h (List.length_eq_zero.1 this.symm)

theorem map_pyToLower_joinSpaces (L : List (List Char)) :
    (joinSpaces L).map pyToLower = joinSpaces (L.map (List.map pyToLower)) := by
  induction L with
  | nil => rfl
  | cons w ws ih =>
    match ws with
    | [] => rfl
    | v :: vs =>
      have h1 : joinSpaces (w :: v :: vs) = w ++ ' ' :: joinSpaces (v :: vs) :=
        joinSpaces_cons_of_ne _ _ (by simp)
      have h2 : joinSpaces ((w :: v :: vs).map (List.map pyToLower)) =
          w.map pyToLower ++ ' ' ::
            joinSpaces ((v :: vs).map (List.map pyToLower)) := by
        rw [List.map_cons]
        exact joinSpaces_cons_of_ne _ _ (by simp)
      rw [h1, h2, List.map_append, List.map_cons, ih]
      have h3 : pyToLower ' ' = ' ' := by decide
      rw [h3]

theorem pyStrip_nil_all_space {s : List Char} (h : pyStrip s = []) :
    ∀ c ∈ s, isPySpace c = true := by
  unfold pyStrip at h
  have h2 : (s.dropWhile isPySpace).reverse.dropWhile isPySpace = [] := by
    have := congrArg List.reverse h
    rwa [List.reverse_reverse] at this
  have h3 : ∀ c ∈ (s.dropWhile isPySpace).reverse, isPySpace c = true :=
    fun c hc => List.dropWhile_eq_nil_iff.1 h2 c hc
  have h4 : ∀ c ∈ s.dropWhile isPySpace, isPySpace c = true :=
    fun c hc => h3 c (List.mem_reverse.2 hc)
  intro c hc
  rw [← List.takeWhile_append_dropWhile (p := isPySpace) (l := s)] at hc
  rcases List.mem_append.1 hc with h5 | h5
  · exact List.mem_takeWhile_imp h5
  · exact h4 c h5

theorem splitWs_all_space {s : List Char} (h : ∀ c ∈ s, isPySpace c = true) :
    splitWs s = [] := by
  induction s with
  | nil => exact splitWs_nil
  | cons c rest ih =>
    rw [splitWs_cons, if_pos (h c (by simp))]
    exact ih (fun x hx => h x (by simp [hx]))

/-- An all-whitespace (or empty) name normalizes to the empty string. -/
theorem normalize_name_of_strip_nil {name : List Char} (h : pyStrip name = []) :
    normalize_name name = [] := by
  by_cases hn : name = []
  · rw [hn]; rfl
  · unfold normalize_name
    rw [if_neg hn]
    have hall := pyStrip_nil_all_space h
    have : splitWs ((name.flatMap asciiFold).filter
        (fun c => isPyWord c || isPySpace c)) = [] := by
      apply splitWs_all_space
      intro c hc
      have hmem := List.mem_filter.1 hc
      obtain ⟨e, he, hce⟩ := List.mem_flatMap.1 hmem.1
      have hes : isPySpace e = true := hall e he
      have : c = e := by
        have hea : e.toNat < 128 := by
          have := isPySpace_toNat e
          rw [hes] at this
          have h9 := of_decide_eq_true this.symm
          omega
        rw [asciiFold_of_ascii hea] at hce
        simpa using hce
      rw [this]; exact hes
    rw [this]
    rfl

/-- Structure of `normalize_name` output: a clean join of tokens. -/
theorem normalize_name_tokens (name : List Char) :
    ∃ G, normalize_name name = joinSpaces G ∧ CleanToks G := by
  by_cases hn : name = []
  · exact ⟨[], by rw [hn]; rfl, fun w hw => by simp at hw⟩
  · refine ⟨(splitWs ((name.flatMap asciiFold).filter
      (fun c => isPyWord c || isPySpace c))).map (List.map pyToLower), ?_, ?_⟩
    · unfold normalize_name
      rw [if_neg hn, map_pyToLower_joinSpaces]
    · intro w hw
      obtain ⟨v, hv, rfl⟩ := List.mem_map.1 hw
      obtain ⟨hvne, hvns⟩ := splitWs_clean _ v hv
      constructor
      · simpa using hvne
      · intro c hc
        obtain ⟨d, hd, rfl⟩ := List.mem_map.1 hc
        rw [isPySpace_pyToLower]
        exact hvns d hd

/-! ## Claim theorems -/

/-- C1: for every pair of author name strings, `match_name_parts`
returns 0 whenever the full-string similarity ratio between the two
parsed last names is below 90 (regardless of first/middle names), and
also returns 0 when both parsed last names are empty. -/
theorem claim_surname_gate (bib oa : List Char) :
    (((fuzzRatio (split_name_components bib).2.2
        (split_name_components oa).2.2 : ℚ) < 90) →
      match_name_parts bib oa = 0) ∧
    ((split_name_components bib).2.2 = [] ∧
        (split_name_components oa).2.2 = [] →
      match_name_parts bib oa = 0) := by
  constructor
  · intro hlt
    simp only [match_name_parts]
    by_cases hemp : (split_name_components bib).2.2 = [] ∧
        (split_name_components oa).2.2 = []
    · rw [if_pos hemp]
    · rw [if_neg hemp, if_pos hlt]
  · intro hemp
    simp only [match_name_parts]
    rw [if_pos hemp]

/-- Witness for C1: "John Smith" vs "Jon Smythe" has a last-name ratio
of 73 < 90, so the score is 0; and a punctuation-only pair parses to
empty last names, so the score is 0. -/
theorem claim_surname_gate_witness :
    ((fuzzRatio (split_name_components "John Smith".data).2.2
        (split_name_components "Jon Smythe".data).2.2 : ℚ) < 90 ∧
      match_name_parts "John Smith".data "Jon Smythe".data = 0) ∧
    ((split_name_components "!!".data).2.2 = [] ∧
        (split_name_components "??".data).2.2 = [] ∧
      match_name_parts "!!".data "??".data = 0) :=
  ⟨⟨by decide, (claim_surname_gate "John Smith".data "Jon Smythe".data).1
      (by decide)⟩,
   ⟨by decide, by decide,
    (claim_surname_gate "!!".data "??".data).2 (by decide)⟩⟩

/-- C3: an entry that already carries an `openalex` field is returned
unchanged with `(changed, matched) = (False, True)`, no retrieval calls
and no candidate scored. -/
theorem claim_already_matched_noop (entry : Entry)
    (fetch : List Char → List Char → List Char → List Work)
    (userAccept user_interaction strict : Bool)
    (h : hasField entry ['o','p','e','n','a','l','e','x'] = true) :
    process_bib_entry_by_title entry fetch userAccept user_interaction strict =
      ⟨false, true, entry, 0, 0⟩ := by
  unfold process_bib_entry_by_title
  rw [if_pos h]

/-- Witness for C3 at a concrete already-matched entry. -/
theorem claim_already_matched_noop_witness :
    hasField [(['o','p','e','n','a','l','e','x'], ['W','9']),
      (['t','i','t','l','e'], [' ','x',' '])] ['o','p','e','n','a','l','e','x'] = true ∧
    process_bib_entry_by_title
        [(['o','p','e','n','a','l','e','x'], ['W','9']),
         (['t','i','t','l','e'], [' ','x',' '])]
        (fun _ _ _ => [⟨['W','7'], some ['x'], none, []⟩]) false false false =
      ⟨false, true,
       [(['o','p','e','n','a','l','e','x'], ['W','9']),
        (['t','i','t','l','e'], [' ','x',' '])], 0, 0⟩ :=
  ⟨by decide,
   claim_already_matched_noop _ (fun _ _ _ => [⟨['W','7'], some ['x'], none, []⟩])
     false false false (by decide)⟩

/-- Counterexample to C4 as stated: with both weights set to 1 (each
individually valid, so the code's per-weight clamp leaves them alone),
the title scorer returns 200 for identical one-word titles — it never
clamps its combined output. -/
theorem claim_score_bounds_ce :
    ¬(fuzzy_match_titles (some ['x']) (some ['x']) 1 1 ≤ 100) := by
  decide

/-- C4 (amended): with its default weights (0.7, 0.3) the title scorer
is bounded in [0, 100], and the name-pair, author-coverage, metadata
and overall scorers are bounded in [0, 100] for every input. -/
theorem claim_score_bounds :
    (∀ t1 t2 : Option (List Char),
      0 ≤ fuzzy_match_titles t1 t2 (7 / 10) (3 / 10) ∧
      fuzzy_match_titles t1 t2 (7 / 10) (3 / 10) ≤ 100) ∧
    (∀ a b : List Char,
      0 ≤ match_name_parts a b ∧ match_name_parts a b ≤ 100) ∧
    (∀ (bibs oas : List (List Char)) (θ : ℚ),
      0 ≤ fuzzy_match_authors bibs oas θ ∧
      fuzzy_match_authors bibs oas θ ≤ 100) ∧
    (∀ (e : Entry) (w : Work),
      0 ≤ compute_metadata_score e w ∧ compute_metadata_score e w ≤ 100) ∧
    (∀ (e : Entry) (w : Work),
      0 ≤ compute_overall_score e w ∧ compute_overall_score e w ≤ 100) := by
  have hts : ∀ s1 s2 : List Char, (0 : ℚ) ≤ (token_set_ratio s1 s2 : ℚ) ∧
      (token_set_ratio s1 s2 : ℚ) ≤ 100 := by
    intro s1 s2
    have := token_set_ratio_bounds s1 s2
    constructor
    · exact_mod_cast this.1
    · exact_mod_cast this.2
  have hpr : ∀ s1 s2 : List Char, (0 : ℚ) ≤ (fuzzPartialRatio s1 s2 : ℚ) ∧
      (fuzzPartialRatio s1 s2 : ℚ) ≤ 100 := by
    intro s1 s2
    have := fuzzPartialRatio_bounds s1 s2
    constructor
    · exact_mod_cast this.1
    · exact_mod_cast this.2
  refine ⟨?_, ?_, ?_, ?_, ?_⟩
  · intro t1 t2
    simp only [fuzzy_match_titles]
    match t1, t2 with
    | none, none => dsimp only; norm_num
    | none, some _ => dsimp only; norm_num
    | some _, none => dsimp only; norm_num
    | some s1, some s2 =>
      dsimp only
      by_cases h1 : s1 = [] ∨ s2 = []
      · rw [if_pos h1]; norm_num
      · rw [if_neg h1]
        by_cases h2 : normalize_text s1 = [] ∨ normalize_text s2 = []
        · rw [if_pos h2]; norm_num
        · rw [if_neg h2]
          have a1 := hts (normalize_text s1) (normalize_text s2)
          have a2 := hpr (normalize_text s1) (normalize_text s2)
          have hw : max 0 (min 1 ((7:ℚ)/10)) = 7/10 := by norm_num
          have hw2 : max 0 (min 1 ((3:ℚ)/10)) = 3/10 := by norm_num
          rw [hw, hw2]
          constructor <;> nlinarith [a1.1, a1.2, a2.1, a2.2]
  · intro a b
    simp only [match_name_parts]
    by_cases hemp : (split_name_components a).2.2 = [] ∧
        (split_name_components b).2.2 = []
    · rw [if_pos hemp]; norm_num
    · rw [if_neg hemp]
      by_cases hlt : ((fuzzRatio (split_name_components a).2.2
          (split_name_components b).2.2 : ℚ)) < 90
      · rw [if_pos hlt]; norm_num
      · rw [if_neg hlt]; exact clamp_bounds _
  · intro bibs oas θ
    simp only [fuzzy_match_authors]
    by_cases hemp : bibs = [] ∨ oas = []
    · rw [if_pos hemp]; norm_num
    · rw [if_neg hemp]
      constructor
      · exact le_max_left 0 _
      · have hbne : bibs ≠ [] := fun hcon => hemp (Or.inl hcon)
        have hlen : 0 < bibs.length := List.length_pos.2 hbne
        have hcov : (((bibs.filter (fun b => anyNameMatch b
            (max 0 (min 100 θ)) oas)).length : ℚ) / bibs.length) * 100 ≤ 100 := by
          have hle : (bibs.filter (fun b => anyNameMatch b
              (max 0 (min 100 θ)) oas)).length ≤ bibs.length :=
            List.length_filter_le _ _
          have hleq : ((bibs.filter (fun b => anyNameMatch b
              (max 0 (min 100 θ)) oas)).length : ℚ) ≤ (bibs.length : ℚ) := by
            exact_mod_cast hle
          have hlq : (0 : ℚ) < bibs.length := by exact_mod_cast hlen
          rw [div_mul_eq_mul_div, div_le_iff₀ hlq]
          nlinarith
        apply max_le (by norm_num)
        by_cases hd : 2 < max bibs.length oas.length - min bibs.length oas.length
        · rw [if_pos hd]
          have : (0 : ℚ) ≤ (max bibs.length oas.length -
              min bibs.length oas.length : Nat) * 5 := by positivity
          linarith
        · rw [if_neg hd]
          exact hcov
  · intro e w
    simp only [compute_metadata_score]
    exact clamp_bounds _
  · intro e w
    simp only [compute_overall_score]
    exact clamp_bounds _

/-- Counterexample to C5 as stated: four bibliography authors against
one candidate author, with exactly one covered.  The code returns
25 − 5·3 = 10, while the claimed penalty 5·(diff − 2) would give
25 − 5·1 = 20. -/
theorem claim_author_coverage_ce :
    (([['j','o','h','n',' ','s','m','i','t','h'],
       ['a','l','i','c','e',' ','b','r','o','w','n'],
       ['b','o','b',' ','j','o','n','e','s'],
       ['c','a','r','o','l',' ','w','h','i','t','e']].filter
        (fun b => anyNameMatch b 70 [['j','o','h','n',' ','s','m','i','t','h']])).length
      = 1) ∧
    fuzzy_match_authors
      [['j','o','h','n',' ','s','m','i','t','h'],
       ['a','l','i','c','e',' ','b','r','o','w','n'],
       ['b','o','b',' ','j','o','n','e','s'],
       ['c','a','r','o','l',' ','w','h','i','t','e']]
      [['j','o','h','n',' ','s','m','i','t','h']] 70 = 10 ∧
    max 0 (((1 : ℚ) / 4) * 100 - 5 * ((3 : ℚ) - 2)) = 20 := by
  refine ⟨by decide, by decide, by norm_num⟩

/-- C5 (amended): for non-empty author lists and a threshold already in
[0, 100], the coverage score is (covered/len)·100 with a penalty of
5 points per unit of the **whole** length difference (not of its excess
over 2) whenever that difference exceeds 2, clamped to ≥ 0. -/
theorem claim_author_coverage (bibs oas : List (List Char)) (θ : ℚ)
    (hb : bibs ≠ []) (ho : oas ≠ []) (hθ0 : 0 ≤ θ) (hθ1 : θ ≤ 100) :
    fuzzy_match_authors bibs oas θ =
      max 0 ((((bibs.filter (fun b =>
          oas.any (fun o => decide (θ ≤ match_name_parts b o)))).length : ℚ) /
            bibs.length) * 100 -
        (if 2 < max bibs.length oas.length - min bibs.length oas.length
         then ((max bibs.length oas.length - min bibs.length oas.length : Nat) : ℚ) * 5
         else 0)) := by
  simp only [fuzzy_match_authors]
  rw [if_neg (by simp [hb, ho])]
  have hclamp : max 0 (min 100 θ) = θ := by
    rw [min_eq_right hθ1, max_eq_right hθ0]
  rw [hclamp]
  have hfilter : bibs.filter (fun b => anyNameMatch b θ oas) =
      bibs.filter (fun b => oas.any (fun o => decide (θ ≤ match_name_parts b o))) := by
    apply List.filter_congr
    intro b _
    exact anyNameMatch_eq_any b θ oas
  rw [hfilter]
  by_cases hd : 2 < max bibs.length oas.length - min bibs.length oas.length
  · rw [if_pos hd, if_pos hd]
  · rw [if_neg hd, if_neg hd]
    ring_nf

/-- Witness for C5 (amended) at the counterexample input: the amended
formula evaluates to the code's value 10. -/
theorem claim_author_coverage_witness :
    fuzzy_match_authors
      [['j','o','h','n',' ','s','m','i','t','h'],
       ['a','l','i','c','e',' ','b','r','o','w','n'],
       ['b','o','b',' ','j','o','n','e','s'],
       ['c','a','r','o','l',' ','w','h','i','t','e']]
      [['j','o','h','n',' ','s','m','i','t','h']] 70 = 10 := by
  have h := claim_author_coverage
    [['j','o','h','n',' ','s','m','i','t','h'],
     ['a','l','i','c','e',' ','b','r','o','w','n'],
     ['b','o','b',' ','j','o','n','e','s'],
     ['c','a','r','o','l',' ','w','h','i','t','e']]
    [['j','o','h','n',' ','s','m','i','t','h']] 70
    (by decide) (by decide) (by norm_num) (by norm_num)
  rw [h]
  decide

/-- Counterexample to C6 as stated: "the" is a non-empty ASCII title
with no punctuation and no accents, yet its self-similarity is 0, not
100 — normalization reduces it to the empty string (it is a stopword),
and the scorer returns 0 on an empty normalization. -/
theorem claim_title_self_ce :
    fuzzy_match_titles (some ['t','h','e']) (some ['t','h','e'])
        (7 / 10) (3 / 10) = 0 ∧
    ['t','h','e'] ≠ ([] : List Char) := by
  refine ⟨by decide, by decide⟩

/-- C6 (amended): for every title over ASCII letters, digits and spaces
whose normalization is non-empty (i.e. that is not whitespace-only and
does not consist solely of stopwords), the title self-similarity score
is exactly 100 at the default weights. -/
theorem claim_title_self (t : List Char)
    (hA : ∀ c ∈ t, (48 ≤ c.toNat ∧ c.toNat ≤ 57) ∨ (65 ≤ c.toNat ∧ c.toNat ≤ 90) ∨
      (97 ≤ c.toNat ∧ c.toNat ≤ 122) ∨ c = ' ')
    (hN : normalize_text t ≠ []) :
    fuzzy_match_titles (some t) (some t) (7 / 10) (3 / 10) = 100 :=
  fuzzy_match_titles_self t hA hN

/-- Witness for C6 (amended) at the title "Deep Learning". -/
theorem claim_title_self_witness :
    normalize_text ['D','e','e','p',' ','L','e','a','r','n','i','n','g'] ≠ [] ∧
    fuzzy_match_titles (some ['D','e','e','p',' ','L','e','a','r','n','i','n','g'])
      (some ['D','e','e','p',' ','L','e','a','r','n','i','n','g'])
      (7 / 10) (3 / 10) = 100 :=
  ⟨by decide,
   claim_title_self ['D','e','e','p',' ','L','e','a','r','n','i','n','g']
     (by decide) (by decide)⟩

/-- Counterexample to C7 as stated: "." is neither empty nor
whitespace-only, yet its parsed last name is empty — normalization
strips the punctuation, leaving no tokens at all. -/
theorem claim_lastname_nonempty_ce :
    (split_name_components ['.']).2.2 = [] ∧ (['.'] : List Char) ≠ [] ∧
    pyStrip ['.'] ≠ [] := by
  refine ⟨by decide, by decide, by decide⟩

/-- C9: text normalization is idempotent. -/
theorem claim_normalize_idempotent (x : List Char) :
    normalize_text (normalize_text x) = normalize_text x :=
  normalize_text_idem x

theorem mergeSuffix_facts {parts : List (List Char)}
    (hne : parts ≠ []) (htoks : ∀ w ∈ parts, w ≠ []) :
    mergeSuffix parts ≠ [] ∧ ∀ w ∈ mergeSuffix parts, w ≠ [] := by
  unfold mergeSuffix
  cases hrev : parts.reverse with
  | nil =>
    rw [List.reverse_eq_nil_iff] at hrev
    exact absurd hrev hne
  | cons last rest0 =>
    cases rest0 with
    | nil => exact ⟨hne, htoks⟩
    | cons prev rest =>
      dsimp only
      by_cases hsuf : SUFFIXES.contains last
      · rw [if_pos hsuf]
        constructor
        · simp
        · intro w hw
          rw [List.mem_reverse] at hw
          rcases List.mem_cons.1 hw with rfl | hw2
          · simp
          · apply htoks
            have : w ∈ parts.reverse := by rw [hrev]; simp [hw2]
            exact List.mem_reverse.1 this
      · rw [if_neg hsuf]
        exact ⟨hne, htoks⟩

/-- C7 (amended): the parsed last name is non-empty whenever the
normalized name is non-empty (the original "unless empty or
whitespace-only" guard fails on names that normalization empties, such
as punctuation-only names). -/
theorem claim_lastname_nonempty (name : List Char)
    (h : normalize_name name ≠ []) :
    (split_name_components name).2.2 ≠ [] := by
  obtain ⟨G, hG, hclean⟩ := normalize_name_tokens name
  have hGne : G ≠ [] := by
    intro hcon
    rw [hcon] at hG
    exact h (by rw [hG]; rfl)
  have hguard : ¬(name = [] ∨ pyStrip name = []) := by
    push_neg
    constructor
    · intro hcon; exact h (by rw [hcon]; rfl)
    · intro hcon; exact h (normalize_name_of_strip_nil hcon)
  have hparts : splitWs (normalize_name name) = G := by
    rw [hG]; exact splitWs_joinSpaces G hclean
  have hGtoks : ∀ w ∈ G, w ≠ [] := fun w hw => (hclean w hw).1
  obtain ⟨hMne, hMtoks⟩ := mergeSuffix_facts hGne hGtoks
  unfold split_name_components
  rw [if_neg hguard, hparts]
  cases hM : mergeSuffix G with
  | nil => exact absurd hM hMne
  | cons p rest =>
    cases rest with
    | nil =>
      dsimp only
      exact hMtoks p (by rw [hM]; simp)
    | cons q rest2 =>
      cases rest2 with
      | nil =>
        dsimp only
        exact hMtoks q (by rw [hM]; simp)
      | cons r rest3 =>
        dsimp only
        have hlast : (q :: r :: rest3).getLast? =
            some ((q :: r :: rest3).getLast (by simp)) :=
          List.getLast?_eq_getLast _ _
        rw [hlast]
        simp only [Option.getD_some]
        apply hMtoks
        rw [hM]
        exact List.mem_cons_of_mem p (List.getLast_mem _)

/-- Witness for C7 (amended) at "John Smith". -/
theorem claim_lastname_nonempty_witness :
    normalize_name ['J','o','h','n',' ','S','m','i','t','h'] ≠ [] ∧
    (split_name_components ['J','o','h','n',' ','S','m','i','t','h']).2.2 ≠ [] :=
  ⟨by decide,
   claim_lastname_nonempty ['J','o','h','n',' ','S','m','i','t','h'] (by decide)⟩

/-- Counterexample to C8 as stated: an identifier that is URL-shaped
but does not carry the exact prefix "https://openalex.org/" (here the
http variant) is returned whole, not reduced to its final path
segment. -/
theorem claim_short_id_ce :
    extract_short_id_if_needed
        ['h','t','t','p',':','/','/','o','p','e','n','a','l','e','x','.','o','r','g','/','W','1','2','3'] =
      ['h','t','t','p',':','/','/','o','p','e','n','a','l','e','x','.','o','r','g','/','W','1','2','3'] ∧
    ['h','t','t','p',':','/','/','o','p','e','n','a','l','e','x','.','o','r','g','/','W','1','2','3'] ≠
      ['W','1','2','3'] := by
  refine ⟨by decide, by decide⟩

/-- C8 (amended): only identifiers carrying the literal prefix
"https://openalex.org/" are shortened, to the final path segment; any
other identifier — URL-shaped or not — is kept as-is. -/
theorem claim_short_id (t : List Char) (hslash : ∀ c ∈ t, c ≠ '/') :
    extract_short_id_if_needed ("https://openalex.org/".data ++ t) = t ∧
    ∀ wid : List Char, ("https://openalex.org/".data).isPrefixOf wid = false →
      extract_short_id_if_needed wid = wid := by
  constructor
  · unfold extract_short_id_if_needed
    rw [if_pos (by
      rw [List.isPrefixOf_iff_prefix]
      exact List.prefix_append _ t)]
    rw [List.reverse_append]
    rw [takeWhile_append_all _ t.reverse _
      (fun c hc => by simpa using hslash c (List.mem_reverse.1 hc))]
    have hpre : (("https://openalex.org/".data).reverse).takeWhile
        (fun c => decide (c ≠ '/')) = [] := by decide
    rw [hpre, List.append_nil, List.reverse_reverse]
  · intro wid h
    unfold extract_short_id_if_needed
    rw [if_neg (by simp [h])]

/-- Witness for C8 (amended) at the id tail "W123" and the foreign id
"abc". -/
theorem claim_short_id_witness :
    extract_short_id_if_needed ("https://openalex.org/".data ++ ['W','1','2','3']) =
      ['W','1','2','3'] ∧
    extract_short_id_if_needed ['a','b','c'] = ['a','b','c'] :=
  ⟨(claim_short_id ['W','1','2','3'] (by decide)).1,
   (claim_short_id ['W','1','2','3'] (by decide)).2 ['a','b','c'] (by decide)⟩

/-- Counterexample to C2 as stated: in the NoMatch branch the entry is
**not** left unchanged — `clean_bibtex_entry` has already rewritten its
whitespace in place.  Here the lone candidate scores 10 < 60, the
result is NoMatch, and the stored title has changed. -/
theorem claim_decision_thresholds_ce :
    (process_bib_entry_by_title
        [(['t','i','t','l','e'],
          [' ','d','e','e','p',' ',' ','l','e','a','r','n','i','n','g',' '])]
        (fun _ _ _ => [⟨['W','1'], some ['z','z','z'], none, []⟩])
        false false false).matched = false ∧
    (process_bib_entry_by_title
        [(['t','i','t','l','e'],
          [' ','d','e','e','p',' ',' ','l','e','a','r','n','i','n','g',' '])]
        (fun _ _ _ => [⟨['W','1'], some ['z','z','z'], none, []⟩])
        false false false).entry ≠
      [(['t','i','t','l','e'],
        [' ','d','e','e','p',' ',' ','l','e','a','r','n','i','n','g',' '])] := by
  refine ⟨by decide, by decide⟩

/-- C2 (amended): in non-interactive mode, with an entry that has no
identifier yet, a usable (cleaned) title, and a non-empty scored
candidate list whose best score is `bs`: with thresholds high = 85,
maybe = 60 (high = 90, maybe = 70 in strict mode), `bs ≥ high` and
`maybe ≤ bs < high` both yield auto-acceptance with the short
identifier attached, and `bs < maybe` yields NoMatch with no identifier
attached — the entry then carries only the in-place whitespace cleanup
that the matcher applies to every entry it examines. -/
theorem claim_decision_thresholds (entry : Entry)
    (fetch : List Char → List Char → List Char → List Work)
    (userAccept strict : Bool) (bs : ℚ) (bw : Work) (rest : List (ℚ × Work))
    (hoa : hasField entry ['o','p','e','n','a','l','e','x'] = false)
    (ht : getFieldD (clean_bibtex_entry entry) ['t','i','t','l','e'] ≠ [])
    (hscored : sortScoredDesc
        ((candidatesFor (clean_bibtex_entry entry) fetch).map
          (fun w => (compute_overall_score (clean_bibtex_entry entry) w, w))) =
      (bs, bw) :: rest) :
    (((if strict then (90 : ℚ) else 85) ≤ bs) →
      process_bib_entry_by_title entry fetch userAccept false strict =
        ⟨true, true,
         setField (clean_bibtex_entry entry) ['o','p','e','n','a','l','e','x']
           (extract_short_id_if_needed bw.id), 1,
         (candidatesFor (clean_bibtex_entry entry) fetch).length⟩) ∧
    (((if strict then (70 : ℚ) else 60) ≤ bs ∧
        bs < (if strict then (90 : ℚ) else 85)) →
      process_bib_entry_by_title entry fetch userAccept false strict =
        ⟨true, true,
         setField (clean_bibtex_entry entry) ['o','p','e','n','a','l','e','x']
           (extract_short_id_if_needed bw.id), 1,
         (candidatesFor (clean_bibtex_entry entry) fetch).length⟩) ∧
    ((bs < (if strict then (70 : ℚ) else 60)) →
      process_bib_entry_by_title entry fetch userAccept false strict =
        ⟨false, false, clean_bibtex_entry entry, 1,
         (candidatesFor (clean_bibtex_entry entry) fetch).length⟩) := by
  have hcand : candidatesFor (clean_bibtex_entry entry) fetch ≠ [] := by
    intro hcon
    rw [hcon] at hscored
    simp [sortScoredDesc] at hscored
  have hred : process_bib_entry_by_title entry fetch userAccept false strict =
      (if (if strict then (90 : ℚ) else 85) ≤ bs then
        (⟨true, true,
          setField (clean_bibtex_entry entry) ['o','p','e','n','a','l','e','x']
            (extract_short_id_if_needed bw.id), 1,
          (candidatesFor (clean_bibtex_entry entry) fetch).length⟩ : ProcOutcome)
       else if (if strict then (70 : ℚ) else 60) ≤ bs then
        ⟨true, true,
         setField (clean_bibtex_entry entry) ['o','p','e','n','a','l','e','x']
           (extract_short_id_if_needed bw.id), 1,
         (candidatesFor (clean_bibtex_entry entry) fetch).length⟩
       else ⟨false, false, clean_bibtex_entry entry, 1,
         (candidatesFor (clean_bibtex_entry entry) fetch).length⟩) := by
    simp only [process_bib_entry_by_title]
    rw [if_neg (by simp [hoa])]
    rw [if_neg ht, if_neg hcand, hscored]
    dsimp only
    rw [if_neg (show ¬(false = true) by simp)]
  have hmh : (if strict then (70 : ℚ) else 60) < (if strict then (90 : ℚ) else 85) := by
    cases strict <;> norm_num
  refine ⟨?_, ?_, ?_⟩
  · intro hh
    rw [hred, if_pos hh]
  · intro hh
    rw [hred, if_neg (not_le.2 hh.2), if_pos hh.1]
  · intro hh
    rw [hred, if_neg (not_le.2 (lt_trans hh hmh)), if_neg (not_le.2 hh)]

/-- Witness for C2 (amended): a single candidate scoring exactly 60
(maybe tier, non-strict, non-interactive) is auto-accepted and the
short identifier attached. -/
theorem claim_decision_thresholds_witness :
    process_bib_entry_by_title [(['t','i','t','l','e'], ['x'])]
        (fun _ _ _ => [⟨['W','7'], some ['x'], none, []⟩]) false false false =
      ⟨true, true,
       [(['t','i','t','l','e'], ['x']), (['o','p','e','n','a','l','e','x'], ['W','7'])],
       1, 1⟩ := by
  have h := (claim_decision_thresholds [(['t','i','t','l','e'], ['x'])]
      (fun _ _ _ => [⟨['W','7'], some ['x'], none, []⟩]) false false 60
      ⟨['W','7'], some ['x'], none, []⟩ []
      (by decide) (by decide) (by decide)).2.1 (by norm_num)
  rw [h]
  decide

/-- C10: in batch processing, entries with a (string, truthy) DOI are
handled exclusively by the batch DOI-resolution step — the fuzzy
title matcher is invoked exactly on the entries without a DOI; a DOI
entry's final state is its original one, possibly with the `openalex`
field set from its resolution result; and when no DOI resolves
(all results falsy), every DOI entry is returned unchanged. -/
theorem claim_doi_exclusive
    (fetch : List Char → List Char → List Char → List Work)
    (userAccept user_interaction strict : Bool)
    (entries : List Entry) (doiResults : List (Option (List Char))) :
    ((handleProcessEntries fetch userAccept user_interaction strict
        entries doiResults).2 =
      entries.filter (fun e => !truthyDoi e)) ∧
    (List.Forall₂ (fun (e f : Entry) => truthyDoi e = true →
        f = e ∨ ∃ w, w ≠ [] ∧ f = setField e ['o','p','e','n','a','l','e','x'] w)
      entries
      (handleProcessEntries fetch userAccept user_interaction strict
        entries doiResults).1) ∧
    ((∀ r ∈ doiResults, r = none ∨ r = some []) →
      List.Forall₂ (fun (e f : Entry) => truthyDoi e = true → f = e)
        entries
        (handleProcessEntries fetch userAccept user_interaction strict
          entries doiResults).1) := by
  induction entries generalizing doiResults with
  | nil =>
    refine ⟨rfl, List.Forall₂.nil, fun _ => List.Forall₂.nil⟩
  | cons e rest ih =>
    by_cases hd : truthyDoi e
    · cases doiResults with
      | nil =>
        simp only [handleProcessEntries, hd, if_true]
        obtain ⟨ih1, ih2, ih3⟩ := ih []
        refine ⟨?_, ?_, ?_⟩
        · rw [List.filter_cons_of_neg (by simp [hd])]
          exact ih1
        · exact List.Forall₂.cons (fun _ => Or.inl rfl) ih2
        · intro _
          exact List.Forall₂.cons (fun _ => rfl) (ih3 (by intro r hr; simp at hr))
      | cons r rs =>
        simp only [handleProcessEntries, hd, if_true]
        obtain ⟨ih1, ih2, ih3⟩ := ih rs
        refine ⟨?_, ?_, ?_⟩
        · rw [List.filter_cons_of_neg (by simp [hd])]
          exact ih1
        · refine List.Forall₂.cons ?_ ih2
          intro _
          unfold doiApply
          match r with
          | none => exact Or.inl rfl
          | some w =>
            dsimp only
            by_cases hw : w ≠ []
            · rw [if_pos hw]
              exact Or.inr ⟨w, hw, rfl⟩
            · rw [if_neg hw]
              exact Or.inl rfl
        · intro hall
          refine List.Forall₂.cons ?_
            (ih3 (fun x hx => hall x (by simp [hx])))
          intro _
          rcases hall r (by simp) with rfl | rfl
          · rfl
          · rfl
    · simp only [handleProcessEntries, hd, Bool.false_eq_true, if_false]
      obtain ⟨ih1, ih2, ih3⟩ := ih doiResults
      refine ⟨?_, ?_, ?_⟩
      · rw [List.filter_cons_of_pos (by simp [hd])]
        rw [ih1]
      · refine List.Forall₂.cons ?_ ih2
        intro hcon
        exact absurd hcon hd
      · intro hall
        refine List.Forall₂.cons ?_ (ih3 hall)
        intro hcon
        exact absurd hcon hd

/-- Witness for C10: one DOI entry and one DOI-less entry, with a
failing resolution — only the DOI-less entry reaches the fuzzy matcher
and the DOI entry is unchanged. -/
theorem claim_doi_exclusive_witness :
    ((handleProcessEntries (fun _ _ _ => []) false false false
        [[(['d','o','i'], ['1','0','.','1'])], [(['t','i','t','l','e'], [])]]
        [none]).2 =
      [[(['t','i','t','l','e'], [])]]) ∧
    List.Forall₂ (fun (e f : Entry) => truthyDoi e = true → f = e)
      [[(['d','o','i'], ['1','0','.','1'])], [(['t','i','t','l','e'], [])]]
      (handleProcessEntries (fun _ _ _ => []) false false false
        [[(['d','o','i'], ['1','0','.','1'])], [(['t','i','t','l','e'], [])]]
        [none]).1 := by
  constructor
  · rw [(claim_doi_exclusive (fun _ _ _ => []) false false false
      [[(['d','o','i'], ['1','0','.','1'])], [(['t','i','t','l','e'], [])]]
      [none]).1]
    decide
  · exact (claim_doi_exclusive (fun _ _ _ => []) false false false
      [[(['d','o','i'], ['1','0','.','1'])], [(['t','i','t','l','e'], [])]]
      [none]).2.2 (by intro r hr; simp at hr; simp [hr])

end Alexify
